import Mathlib

/-!
# Verification of the dayoneXtwitter thread pipeline

Shallow embedding of the core pipeline of the `dayoneXtwitter` repository:
tweet data model, mention extraction, thread categorization
(`tweet_parser.get_thread_category`), thread segmentation
(`tweet_parser.combine_threads`), timestamp normalization in
`tweet_parser.load_tweets`, the Day One delivery call
(`dayone_entry.add_post`) and the ledger-gated per-thread processing
(`processing_utils.process_single_thread`).

Python dictionaries become Lean structures; in-place mutation becomes
explicit state passing; the external `dayone2` subprocess, the Ollama
summarizer and the `humanize` library are modelled as function-valued
parameters of the embedding.  Character classes are modelled over ASCII
(the regexes in the source use the ASCII class `[A-Za-z0-9_]`; Python's
`\w` is wider on non-ASCII input, which no theorem below depends on).
-/

namespace DayoneXTwitter

/-- A user mention from `entities.user_mentions`: `screen_name` plus the
optional real `name` (`m.get("name")` may be absent/None). -/
structure Mention where
  screen_name : String
  name : Option String
deriving DecidableEq, Repr

/-- A url entity from `entities.urls`. Fields mirror `url` (the t.co
shortlink), `expanded_url` and `display_url`, each possibly absent. -/
structure UrlEntity where
  url : Option String
  expanded_url : Option String
  display_url : Option String
deriving DecidableEq, Repr

/-- A media entity; only the fields the modelled code paths read. -/
structure MediaEntity where
  url : Option String
deriving DecidableEq, Repr

/-- The `entities` sub-dictionary.  A missing key behaves exactly like an
empty list in every modelled code path (`entities.get('media', [])` etc.),
so keys are modelled as plain lists. -/
structure Entities where
  urls : List UrlEntity := []
  media : List MediaEntity := []
  user_mentions : List Mention := []
  hashtags : List String := []
deriving DecidableEq, Repr

/-- A timezone-naive timestamp, as produced by
`datetime.strptime(...).replace(tzinfo=None)`. -/
structure Timestamp where
  year : Nat
  month : Nat
  day : Nat
  hour : Nat
  minute : Nat
  second : Nat
deriving DecidableEq, Repr

/-- One archived tweet (the inner `tweet` dictionary), after
`load_tweets` has normalized `created_at` to a datetime.  `favorite_count`
and `retweet_count` are the archive's decimal strings (the code calls
`int()` on them at use sites). -/
structure Tweet where
  id_str : String
  full_text : String
  created_at : Timestamp
  in_reply_to_status_id_str : Option String := none
  in_reply_to_screen_name : Option String := none
  entities : Entities := {}
  extended_entities : Option Entities := none
  favorite_count : String := "0"
  retweet_count : String := "0"
  coordinates : Option (Int × Int) := none
  media_files : List String := []
deriving DecidableEq, Repr

/-! ## Character classes and small string helpers -/

/-- The regex character class `[A-Za-z0-9_]` (ASCII word character). -/
def isWordChar (c : Char) : Bool :=
  c.isAlpha || c.isDigit || c == '_'

/-- ASCII whitespace, the characters `\s` matches on the inputs the
pipeline sees. -/
def isSpaceChar (c : Char) : Bool :=
  c == ' ' || c == '\t' || c == '\n' || c == '\r'

/-- Substring test on character lists (Python's `needle in hay`). -/
def listContainsSeq (needle : List Char) : List Char → Bool
  | [] => needle.isEmpty
  | c :: t => needle.isPrefixOf (c :: t) || listContainsSeq needle t

/-- `needle in hay` on strings. -/
def strContainsSub (hay needle : String) : Bool :=
  listContainsSeq needle.toList hay.toList

/-- Python's `str.startswith` (plain prefix test on the characters). -/
def strStartsWith (s p : String) : Bool :=
  p.toList.isPrefixOf s.toList

/-- Python's `str.lower`, on the ASCII range the archive's screen names
use. -/
def strLower (s : String) : String :=
  String.mk (s.data.map Char.toLower)

/-! ## Mention extraction

`_get_reply_category` walks `re.finditer(r"@([A-Za-z0-9_]+)", text)`, i.e.
it scans left to right collecting each maximal word-character run that
follows an `@`, then removes duplicates keeping first occurrences. -/

/-- Scanner for `@([A-Za-z0-9_]+)`, fuel-indexed so that it reduces by
`decide`/`rfl`.  Every step strictly shortens the character list, so fuel
`length + 1` can never run out. -/
def findMentionRunsGo : Nat → List Char → List String
  | 0, _ => []
  | _ + 1, [] => []
  | fuel + 1, c :: rest =>
    if c == '@' then
      let w := rest.takeWhile isWordChar
      if w.isEmpty then findMentionRunsGo fuel rest
      else w.asString :: findMentionRunsGo fuel (rest.dropWhile isWordChar)
    else findMentionRunsGo fuel rest

/-- All matches of `@([A-Za-z0-9_]+)` over a character list, left to
right, non-overlapping, greedy — the order `re.finditer` yields them. -/
def findMentionRuns (cs : List Char) : List String :=
  findMentionRunsGo (cs.length + 1) cs

/-- The raw (possibly duplicated) handle occurrence list of a text:
`extracted_handles_in_order` in `_get_reply_category`. -/
def rawHandles (text : String) : List String :=
  findMentionRuns text.toList

/-- The `seen`-set loop that removes duplicates while preserving order:

    seen = set()
    unique = []
    for h in items:
        if h not in seen:
            unique.append(h); seen.add(h)
-/
def dedupFirstAux (seen : List String) : List String → List String
  | [] => []
  | h :: t =>
    if h ∈ seen then dedupFirstAux seen t
    else h :: dedupFirstAux (h :: seen) t

/-- Order-preserving duplicate removal, first occurrence kept. -/
def dedupFirst (l : List String) : List String :=
  dedupFirstAux [] l

/-- `unique_handles_in_order` of `_get_reply_category`: the mention list
extracted from a reply's text. -/
def extractHandlesInOrder (text : String) : List String :=
  dedupFirst (rawHandles text)

/-- Fuel-indexed scanner for `@\w+` (match text kept, `@` included). -/
def findAtWordRunsGo : Nat → List Char → List String
  | 0, _ => []
  | _ + 1, [] => []
  | fuel + 1, c :: rest =>
    if c == '@' then
      let w := rest.takeWhile isWordChar
      if w.isEmpty then findAtWordRunsGo fuel rest
      else ('@' :: w).asString :: findAtWordRunsGo fuel (rest.dropWhile isWordChar)
    else findAtWordRunsGo fuel rest

/-- All matches of `@\w+` over a character list, as used by
`build_entry_content` in `dayone_entry_builder.py`. -/
def findAtWordRuns (cs : List Char) : List String :=
  findAtWordRunsGo (cs.length + 1) cs

/-- The renderer's mention extraction (`build_entry_content`): ordered
`@\w+` matches with duplicates removed, first occurrence kept. -/
def extractMentionsInOrder (text : String) : List String :=
  dedupFirst (findAtWordRuns text.toList)

/-! ### Properties of the dedup loop -/

theorem mem_dedupFirstAux (seen l : List String) (x : String) :
    x ∈ dedupFirstAux seen l ↔ x ∈ l ∧ x ∉ seen := by
  induction l generalizing seen with
  | nil => simp [dedupFirstAux]
  | cons h t ih =>
    by_cases hs : h ∈ seen
    · simp only [dedupFirstAux, if_pos hs, ih]
      constructor
      · rintro ⟨hx, hns⟩
        exact ⟨List.mem_cons_of_mem _ hx, hns⟩
      · rintro ⟨hx, hns⟩
        rcases List.mem_cons.mp hx with rfl | hx
        · exact absurd hs hns
        · exact ⟨hx, hns⟩
    · simp only [dedupFirstAux, if_neg hs, List.mem_cons, ih]
      constructor
      · rintro (rfl | ⟨hx, hns⟩)
        · exact ⟨Or.inl rfl, hs⟩
        · exact ⟨Or.inr hx, fun hc => hns (Or.inr hc)⟩
      · rintro ⟨rfl | hx, hns⟩
        · exact Or.inl rfl
        · by_cases hxh : x = h
          · exact Or.inl hxh
          · exact Or.inr ⟨hx, by simp [hxh, hns]⟩

theorem nodup_dedupFirstAux (seen l : List String) :
    (dedupFirstAux seen l).Nodup := by
  induction l generalizing seen with
  | nil => simp [dedupFirstAux]
  | cons h t ih =>
    by_cases hs : h ∈ seen
    · simpa [dedupFirstAux, if_pos hs] using ih seen
    · simp only [dedupFirstAux, if_neg hs]
      refine List.nodup_cons.mpr ⟨fun hc => ?_, ih (h :: seen)⟩
      exact ((mem_dedupFirstAux _ _ _).mp hc).2 (List.mem_cons_self _ _)

theorem dedupFirstAux_pairwise_firstIndex (seen l : List String) :
    (dedupFirstAux seen l).Pairwise (fun x y => l.indexOf x < l.indexOf y) := by
  induction l generalizing seen with
  | nil => simp [dedupFirstAux]
  | cons h t ih =>
    by_cases hs : h ∈ seen
    · simp only [dedupFirstAux, if_pos hs]
      refine ((ih seen).imp_of_mem ?_)
      intro a b ha hb hab
      have hna : a ≠ h := fun hc => ((mem_dedupFirstAux _ _ _).mp ha).2 (hc ▸ hs)
      have hnb : b ≠ h := fun hc => ((mem_dedupFirstAux _ _ _).mp hb).2 (hc ▸ hs)
      rw [List.indexOf_cons_ne _ (Ne.symm hna), List.indexOf_cons_ne _ (Ne.symm hnb)]
      exact Nat.succ_lt_succ hab
    · simp only [dedupFirstAux, if_neg hs]
      refine List.pairwise_cons.mpr ⟨?_, ?_⟩
      · intro b hb
        have hbt : b ∉ (h :: seen) := ((mem_dedupFirstAux _ _ _).mp hb).2
        have hnb : b ≠ h := fun hc => hbt (hc ▸ List.mem_cons_self _ _)
        rw [List.indexOf_cons_self, List.indexOf_cons_ne _ (Ne.symm hnb)]
        exact Nat.succ_pos _
      · refine ((ih (h :: seen)).imp_of_mem ?_)
        intro a b ha hb hab
        have hna : a ≠ h :=
          fun hc => ((mem_dedupFirstAux _ _ _).mp ha).2 (hc ▸ List.mem_cons_self _ _)
        have hnb : b ≠ h :=
          fun hc => ((mem_dedupFirstAux _ _ _).mp hb).2 (hc ▸ List.mem_cons_self _ _)
        rw [List.indexOf_cons_ne _ (Ne.symm hna), List.indexOf_cons_ne _ (Ne.symm hnb)]
        exact Nat.succ_lt_succ hab

theorem dedupFirst_nodup (l : List String) : (dedupFirst l).Nodup :=
  nodup_dedupFirstAux [] l

theorem mem_dedupFirst (l : List String) (x : String) :
    x ∈ dedupFirst l ↔ x ∈ l := by
  simp [dedupFirst, mem_dedupFirstAux]

theorem dedupFirst_count (l : List String) (x : String) :
    (dedupFirst l).count x = if x ∈ l then 1 else 0 := by
  by_cases hx : x ∈ l
  · rw [if_pos hx]
    exact List.count_eq_one_of_mem (dedupFirst_nodup l)
      ((mem_dedupFirst l x).mpr hx)
  · rw [if_neg hx]
    exact List.count_eq_zero.mpr (fun hc => hx ((mem_dedupFirst l x).mp hc))

theorem dedupFirst_pairwise_firstIndex (l : List String) :
    (dedupFirst l).Pairwise (fun x y => l.indexOf x < l.indexOf y) :=
  dedupFirstAux_pairwise_firstIndex [] l

/-- C5: mention extraction — in both the reply categorizer
(`_get_reply_category`) and the reply framing of the renderer
(`build_entry_content`) — keeps each distinct handle exactly once, in
order of first appearance in the raw occurrence list, and the concrete
input order `[@B, @A, @B]` yields `[B, A]`. -/
theorem mention_extraction_order_preserving_dedup (text : String) :
    ((extractHandlesInOrder text).Nodup
      ∧ (∀ h, (extractHandlesInOrder text).count h
            = if h ∈ rawHandles text then 1 else 0)
      ∧ (extractHandlesInOrder text).Pairwise
          (fun x y => (rawHandles text).indexOf x < (rawHandles text).indexOf y))
    ∧ ((extractMentionsInOrder text).Nodup
      ∧ (∀ m, (extractMentionsInOrder text).count m
            = if m ∈ findAtWordRuns text.toList then 1 else 0)
      ∧ (extractMentionsInOrder text).Pairwise
          (fun x y => (findAtWordRuns text.toList).indexOf x
                        < (findAtWordRuns text.toList).indexOf y))
    ∧ extractHandlesInOrder "@B @A @B" = ["B", "A"] := by
  refine ⟨⟨dedupFirst_nodup _, fun h => dedupFirst_count _ h,
            dedupFirst_pairwise_firstIndex _⟩,
          ⟨dedupFirst_nodup _, fun m => dedupFirst_count _ m,
            dedupFirst_pairwise_firstIndex _⟩, ?_⟩
  decide

/-! ## Name resolution helpers (`tweet_parser.py` lines 9–31) -/

/-- `_build_case_insensitive_name_map` followed by `.get(key)`: the dict
comprehension keeps the *last* entry for a duplicated lowercased
screen name, and a stored `None` name is returned as `None`. -/
def nameMapGet (mentions : List Mention) (key : String) : Option String :=
  (mentions.reverse.find? (fun m => strLower m.screen_name == key)).bind
    (fun m => m.name)

/-- `name_map.get(h.lower()) or f"@{h}"`: case-insensitive lookup with
fallback to `@handle` when the name is absent or falsy (empty). -/
def lookupDisplayName (mentions : List Mention) (h : String) : String :=
  match nameMapGet mentions (strLower h) with
  | some n => if n == "" then "@" ++ h else n
  | none => "@" ++ h

/-- `_join_names_natural_language`. -/
def joinNamesNaturalLanguage (names : List String) : String :=
  match names with
  | [] => ""
  | [a] => a
  | [a, b] => a ++ " and " ++ b
  | a :: b :: c :: rest =>
    String.intercalate ", " ((a :: b :: c :: rest).dropLast)
      ++ ", and " ++ (a :: b :: c :: rest).getLast (by simp)

/-! ## Repost / quote / callout / reply detection -/

/-- `s.toList.isPrefixOf`-based prefix removal for anchored regex pieces. -/
def dropLit (p : String) (s : List Char) : Option (List Char) :=
  if p.toList.isPrefixOf s then some (s.drop p.length) else none

/-- The anchored regex of `extract_retweet_inplace`:
`^RT\s+["]?\@([A-Za-z0-9_]+)["]?:\s*(.*)` with `DOTALL`.  Returns the
captured handle and the remainder (group 2).  The character classes are
disjoint from the literal alternatives, so the greedy left-to-right scan
needs no backtracking. -/
def parseRetweetHead (text : String) : Option (String × String) :=
  match text.toList with
  | 'R' :: 'T' :: rest =>
    let ws := rest.takeWhile isSpaceChar
    if ws.isEmpty then none
    else
      let r1 := rest.dropWhile isSpaceChar
      let r2 := match r1 with | '"' :: r => r | _ => r1
      match r2 with
      | '@' :: r3 =>
        let handle := r3.takeWhile isWordChar
        if handle.isEmpty then none
        else
          let r4 := r3.dropWhile isWordChar
          let r5 := match r4 with | '"' :: r => r | _ => r4
          match r5 with
          | ':' :: r6 => some (handle.asString, (r6.dropWhile isSpaceChar).asString)
          | _ => none
      | _ => none
  | _ => none

/-- `extract_retweet_inplace`: on a match, the tweet's `full_text` is
overwritten in place with the remainder; the retweeted user's display
name is returned.  The in-place write is modelled by returning the
updated tweet next to the name; `none` models Python's `None` return
(text untouched). -/
def extract_retweet (t : Tweet) : Option (String × Tweet) :=
  match parseRetweetHead t.full_text with
  | none => none
  | some (handle, remainder) =>
    some (lookupDisplayName t.entities.user_mentions handle,
          { t with full_text := remainder })

/-- The status-permalink regex of `extract_quote_handle`:
`https?://(?:www\.)?(?:twitter\.com|x\.com)/([^/]+)/status/\d+`, anchored
(`re.match`).  Returns the captured username. -/
def matchStatusUrl (expanded : String) : Option String :=
  let cs := expanded.toList
  let afterScheme :=
    match dropLit "https://" cs with
    | some r => some r
    | none => dropLit "http://" cs
  match afterScheme with
  | none => none
  | some r1 =>
    let r2 := (dropLit "www." r1).getD r1
    let afterHost :=
      match dropLit "twitter.com/" r2 with
      | some r => some r
      | none => dropLit "x.com/" r2
    match afterHost with
    | none => none
    | some r3 =>
      let user := r3.takeWhile (fun c => c != '/')
      if user.isEmpty then none
      else
        match dropLit "/status/" (r3.dropWhile (fun c => c != '/')) with
        | none => none
        | some r5 =>
          match r5 with
          | d :: _ => if d.isDigit then some user.asString else none
          | [] => none

/-- `extract_quote_handle`: first `entities.urls` entry whose
`expanded_url` (default `""`) matches the permalink pattern, as
`@username`; `None` otherwise. -/
def extract_quote_handle (t : Tweet) : Option String :=
  (t.entities.urls.filterMap
    (fun u => matchStatusUrl (u.expanded_url.getD ""))).head?.map
    (fun user => "@" ++ user)

/-- One step of the callout loop of `extract_callouts_inplace`: repeated
anchored matches of `\s*["]?\.?@([A-Za-z0-9_]+)["]?\s*`, each consuming
its match from the front.  Each successful step consumes at least the
`@` and one word character, so fuel `length + 1` cannot run out. -/
def calloutScanGo : Nat → List Char → List String
  | 0, _ => []
  | fuel + 1, cs =>
    let s1 := cs.dropWhile isSpaceChar
    let s2 := match s1 with | '"' :: r => r | _ => s1
    let s3 := match s2 with | '.' :: r => r | _ => s2
    match s3 with
    | '@' :: r =>
      let w := r.takeWhile isWordChar
      if w.isEmpty then []
      else
        let r2 := r.dropWhile isWordChar
        let r3 := match r2 with | '"' :: q => q | _ => r2
        w.asString :: calloutScanGo fuel (r3.dropWhile isSpaceChar)
    | _ => []

/-- `extract_callouts_inplace`: leading `@handle` callouts of the lead
text.  Returns `none` for Python's empty-list return (the caller's
f-string renders that as `"[]"`), otherwise the natural-language join
of the resolved display names (no dedup here, matching the source). -/
def extract_callouts (t : Tweet) : Option String :=
  let handles := calloutScanGo (t.full_text.length + 1) t.full_text.toList
  if handles.isEmpty then none
  else some (joinNamesNaturalLanguage
    (handles.map (lookupDisplayName t.entities.user_mentions)))

/-- `_get_reply_category`.  Note the `if not tweet_data.get(...)` guard
uses Python truthiness: an *empty-string* reply id also yields
"Not a reply", as do replies with no `@` in the text and no (truthy)
`in_reply_to_screen_name` fallback. -/
def get_reply_category (first_tweet : Tweet) : String :=
  match first_tweet.in_reply_to_status_id_str with
  | none => "Not a reply"
  | some rid =>
    if rid == "" then "Not a reply"
    else
      let uniq := extractHandlesInOrder first_tweet.full_text
      let uniq :=
        if uniq.isEmpty then
          match first_tweet.in_reply_to_screen_name with
          | some sn => if sn == "" then [] else [sn]
          | none => []
        else uniq
      if uniq.isEmpty then "Not a reply"
      else
        "Replied to " ++ joinNamesNaturalLanguage
          (uniq.map (lookupDisplayName first_tweet.entities.user_mentions))

/-- `get_thread_category`, with the in-place mutation of the lead tweet
(performed by `extract_retweet_inplace` on the repost branch) made
explicit: the result is the category string together with the thread as
it looks after the call. -/
def get_thread_category (thread : List Tweet) : String × List Tweet :=
  match thread with
  | [] => ("Empty threat", [])
  | first_tweet :: rest =>
    let text := first_tweet.full_text
    let is_retweet := strStartsWith text "RT @" || strStartsWith text "RT \"@"
    let is_reply := first_tweet.in_reply_to_status_id_str.isSome
    let is_callout := (!is_reply && strStartsWith text "@") || strStartsWith text ".@"
    let ext_media_urls : List (Option String) :=
      match first_tweet.extended_entities with
      | some e => e.media.map (fun m => m.url)
      | none => []
    let media_urls_tco : List (Option String) :=
      if ext_media_urls.isEmpty then first_tweet.entities.media.map (fun m => m.url)
      else ext_media_urls
    let has_non_media_twitter_link :=
      first_tweet.entities.urls.any (fun u =>
        match u.expanded_url with
        | some ex =>
          ex != "" &&
            (strContainsSub ex "https://twitter.com" ||
              strContainsSub ex "https://x.com") &&
            !(media_urls_tco.contains u.url)
        | none => false)
    if is_retweet then
      match extract_retweet first_tweet with
      | some (name, t2) => ("Retweeted " ++ name, t2 :: rest)
      | none => ("Retweeted None", first_tweet :: rest)
    else if has_non_media_twitter_link && !is_reply then
      ("Quoted " ++ ((extract_quote_handle first_tweet).getD "None"), thread)
    else if strContainsSub text " RT @" then
      ("Old-style quote tweet", thread)
    else if is_reply then
      (get_reply_category first_tweet, thread)
    else if is_callout then
      ("Callout to " ++ ((extract_callouts first_tweet).getD "[]"), thread)
    else if thread.length > 1 then
      ("Wrote a thread", thread)
    else
      ("Tweeted", thread)

/-! ## Concrete fixtures used by scenario theorems and witnesses -/

/-- Lead of the spec's repost scenario: text `"RT @alice: great day"` with
mention list resolving `alice` to `"Alice A."`. -/
def aliceLead : Tweet :=
  { id_str := "1", full_text := "RT @alice: great day",
    created_at := ⟨2020, 1, 1, 0, 0, 0⟩,
    entities := { user_mentions := [⟨"alice", some "Alice A."⟩] } }

/-- A reply lead whose text has no `@`-mention and that records no
`in_reply_to_screen_name`. -/
def bareReplyLead : Tweet :=
  { id_str := "2", full_text := "hello world",
    created_at := ⟨2020, 1, 2, 0, 0, 0⟩,
    in_reply_to_status_id_str := some "999" }

/-- A plain follow-up tweet used as thread tail in fixtures. -/
def tailTweet : Tweet :=
  { id_str := "3", full_text := "more words",
    created_at := ⟨2020, 1, 3, 0, 0, 0⟩ }

/-- A reply lead that does mention a handle in its text. -/
def mentionReplyLead : Tweet :=
  { id_str := "4", full_text := "@bob thanks a lot",
    created_at := ⟨2020, 1, 4, 0, 0, 0⟩,
    in_reply_to_status_id_str := some "555",
    entities := { user_mentions := [⟨"bob", some "Bob B."⟩] } }

/-! ## C4: the categorizer as a function of lead and length -/

/-- C4: the thread categorizer is a pure function of the segment's lead
post and the segment's length — two segments with the same lead and the
same length receive the same category, and in particular invoking it
twice on identical input yields identical output. -/
theorem thread_category_function_of_lead_and_length
    (t1 t2 : List Tweet) (hh : t1.head? = t2.head?)
    (hl : t1.length = t2.length) :
    (get_thread_category t1).1 = (get_thread_category t2).1 := by
  cases t1 with
  | nil =>
    cases t2 with
    | nil => rfl
    | cons b bs => simp at hh
  | cons a as =>
    cases t2 with
    | nil => simp at hh
    | cons b bs =>
      simp only [List.head?_cons, Option.some.injEq] at hh
      subst hh
      simp only [List.length_cons, Nat.add_right_cancel_iff] at hl
      simp only [get_thread_category]
      rcases hrt : extract_retweet a with _ | ⟨name, t2a⟩ <;>
        simp only [hrt] <;> split_ifs <;> simp_all

/-- Witness for C4 at two concrete segments sharing lead and length but
differing in their tails. -/
theorem thread_category_function_of_lead_and_length_witness :
    (get_thread_category [aliceLead, bareReplyLead]).1
      = (get_thread_category [aliceLead, tailTweet]).1 :=
  thread_category_function_of_lead_and_length
    [aliceLead, bareReplyLead] [aliceLead, tailTweet] rfl rfl

/-! ## C3: replies take precedence over segment length -/

/-- C3 (counterexample): a two-post segment whose lead is a reply
(`in_reply_to_status_id_str = "999"`), matching none of the repost,
quote-link or old-style-quote rules, yet the category is `"Not a reply"`
— *not* a `"Replied to {names}"` category — because the lead text has no
`@`-mention and no `in_reply_to_screen_name` fallback exists. -/
theorem reply_category_counterexample :
    ([bareReplyLead, tailTweet].length > 1)
    ∧ bareReplyLead.in_reply_to_status_id_str = some "999"
    ∧ strStartsWith bareReplyLead.full_text "RT @" = false
    ∧ strStartsWith bareReplyLead.full_text "RT \"@" = false
    ∧ strContainsSub bareReplyLead.full_text " RT @" = false
    ∧ (get_thread_category [bareReplyLead, tailTweet]).1 = "Not a reply"
    ∧ ¬ ∃ names, (get_thread_category [bareReplyLead, tailTweet]).1
          = "Replied to " ++ names := by
  have hcat : (get_thread_category [bareReplyLead, tailTweet]).1
      = "Not a reply" := by decide
  refine ⟨by decide, rfl, by decide, by decide, by decide, hcat, ?_⟩
  rintro ⟨names, hn⟩
  rw [hcat] at hn
  have h2 := congrArg String.data hn
  rw [String.data_append] at h2
  simp at h2

/-- `_get_reply_category` when the lead text does contain mentions. -/
theorem get_reply_category_of_mentions (t : Tweet) (rid : String)
    (hr : t.in_reply_to_status_id_str = some rid) (hrne : rid ≠ "")
    (hm : extractHandlesInOrder t.full_text ≠ []) :
    get_reply_category t = "Replied to " ++ joinNamesNaturalLanguage
      ((extractHandlesInOrder t.full_text).map
        (lookupDisplayName t.entities.user_mentions)) := by
  have hridf : (rid == "") = false := beq_eq_false_iff_ne.mpr hrne
  have hE : (extractHandlesInOrder t.full_text).isEmpty = false := by
    simpa [List.isEmpty_iff] using hm
  simp [get_reply_category, hr, hridf, hE]

/-- `_get_reply_category` when the lead text has no mentions but a
truthy `in_reply_to_screen_name` exists. -/
theorem get_reply_category_of_fallback (t : Tweet) (rid sn : String)
    (hr : t.in_reply_to_status_id_str = some rid) (hrne : rid ≠ "")
    (hm : extractHandlesInOrder t.full_text = [])
    (hsn : t.in_reply_to_screen_name = some sn) (hsne : sn ≠ "") :
    get_reply_category t = "Replied to "
      ++ lookupDisplayName t.entities.user_mentions sn := by
  have hridf : (rid == "") = false := beq_eq_false_iff_ne.mpr hrne
  have hsnf : (sn == "") = false := beq_eq_false_iff_ne.mpr hsne
  simp [get_reply_category, hr, hridf, hm, hsn, hsnf, joinNamesNaturalLanguage]

/-- C3 (amended): for a multi-post segment whose lead is a reply with a
*non-empty* reply id, matching none of the repost / quote-link /
old-style-quote rules, and whose lead text contains at least one
`@`-mention or which records a non-empty `in_reply_to_screen_name`
fallback, the category is a `"Replied to {names}"` label — never
`"Wrote a thread"`.  (Without the mention-or-fallback condition the code
returns `"Not a reply"`, see the counterexample.) -/
theorem reply_category_precedes_thread_length
    (lead : Tweet) (rest : List Tweet) (rid : String)
    (hr : lead.in_reply_to_status_id_str = some rid) (hrne : rid ≠ "")
    (hrt1 : strStartsWith lead.full_text "RT @" = false)
    (hrt2 : strStartsWith lead.full_text "RT \"@" = false)
    (hold : strContainsSub lead.full_text " RT @" = false)
    (hmention : extractHandlesInOrder lead.full_text ≠ [] ∨
      (∃ sn, lead.in_reply_to_screen_name = some sn ∧ sn ≠ "")) :
    (∃ names, (get_thread_category (lead :: rest)).1 = "Replied to " ++ names)
    ∧ (get_thread_category (lead :: rest)).1 ≠ "Wrote a thread" := by
  have hcat : (get_thread_category (lead :: rest)).1
      = get_reply_category lead := by
    simp [get_thread_category, hrt1, hrt2, hold, hr]
  have hrep : ∃ names, get_reply_category lead = "Replied to " ++ names := by
    by_cases hm1 : extractHandlesInOrder lead.full_text = []
    · rcases hmention with hm | ⟨sn, hsn, hsne⟩
      · exact absurd hm1 hm
      · exact ⟨_, get_reply_category_of_fallback lead rid sn hr hrne hm1 hsn hsne⟩
    · exact ⟨_, get_reply_category_of_mentions lead rid hr hrne hm1⟩
  refine ⟨hcat ▸ hrep, ?_⟩
  rcases hrep with ⟨names, hn⟩
  rw [hcat, hn]
  intro hc
  have h2 := congrArg String.data hc
  rw [String.data_append] at h2
  simp at h2

/-- Witness for the amended C3 at a concrete reply lead with a mention. -/
theorem reply_category_precedes_thread_length_witness :
    (∃ names, (get_thread_category [mentionReplyLead, tailTweet]).1
        = "Replied to " ++ names)
    ∧ (get_thread_category [mentionReplyLead, tailTweet]).1
        ≠ "Wrote a thread" :=
  reply_category_precedes_thread_length mentionReplyLead [tailTweet] "555"
    rfl (by decide) (by decide) (by decide) (by decide)
    (Or.inl (by decide))

/-! ## C6: the repost scenario -/

/-- C6 (counterexample): on the spec's repost scenario the categorizer
returns `"Retweeted Alice A."`, not the claimed `"Repost of Alice A."` —
the code renders the repost label with the word `Retweeted`. -/
theorem repost_label_counterexample :
    (get_thread_category [aliceLead]).1 = "Retweeted Alice A."
    ∧ (get_thread_category [aliceLead]).1 ≠ "Repost of Alice A." := by
  constructor
  · decide
  · decide

/-- C6 (amended): lead text `"RT @alice: great day"` with mention list
`{alice: "Alice A."}` is categorized `"Retweeted Alice A."` (the code's
spelling of the repost label), and the repost-marker prefix is stripped
from the working text as a side effect: the lead's text afterwards is
`"great day"`. -/
theorem repost_scenario_retweeted_and_stripped :
    (get_thread_category [aliceLead]).1 = "Retweeted Alice A."
    ∧ ((get_thread_category [aliceLead]).2.head?.map Tweet.full_text)
        = some "great day" := by
  constructor
  · decide
  · decide

/-! ## Thread segmentation (`combine_threads`)

The Python draining loop pops a tweet, appends it to the current segment
(or closes the segment first when the media budget would be exceeded —
in which case the popped tweet opens the next segment), and extends the
queue with the popped tweet's children sorted by numeric id.  The nested
`while` loops are modelled as one fuel-indexed recursion in which each
consumed unit of fuel corresponds to exactly one pop; the split-and-open
step of the source is the first branch. -/

/-- `_count_media`: `extended_entities` if the key is present, else
`entities`; then the length of its `media` list. -/
def count_media (t : Tweet) : Nat :=
  match t.extended_entities with
  | some e => e.media.length
  | none => t.entities.media.length

/-- Decimal value of a digit string. -/
def digitsToNat (cs : List Char) : Nat :=
  cs.foldl (fun acc c => acc * 10 + (c.toNat - 48)) 0

/-- Python's `int(...)` on the decimal id strings the sort keys use.
(`int` raises on non-numeric input; every theorem below instantiates ids
with decimal strings, where this model is exact.) -/
def natId (s : String) : Nat :=
  if !s.toList.isEmpty && s.toList.all Char.isDigit
  then digitsToNat s.toList else 0

/-- `parent_id in tweet_by_id`. -/
def hasId (tweets : List Tweet) (i : String) : Bool :=
  tweets.any (fun t => t.id_str == i)

/-- Whether a tweet was registered in `children_map` (truthy
`in_reply_to_status_id_str` that resolves inside the load). -/
def isRegisteredChild (tweets : List Tweet) (t : Tweet) : Bool :=
  match t.in_reply_to_status_id_str with
  | some p => p != "" && hasId tweets p
  | none => false

/-- `children_map[pid]`: the tweets registered as children of `pid`, in
archive order. -/
def childrenOf (tweets : List Tweet) (pid : String) : List Tweet :=
  tweets.filter (fun t =>
    match t.in_reply_to_status_id_str with
    | some p => p != "" && hasId tweets p && p == pid
    | none => false)

/-- `all_child_ids`. -/
def allChildIds (tweets : List Tweet) : List String :=
  (tweets.filter (isRegisteredChild tweets)).map (fun t => t.id_str)

/-- `root_tweets`: tweets whose id was never registered as a child id. -/
def rootTweets (tweets : List Tweet) : List Tweet :=
  tweets.filter (fun t => !((allChildIds tweets).contains t.id_str))

/-- `sorted(..., key=lambda t: int(t.id_str))`.  Python's sort is
stable; `insertionSort` is a stable sort, so it computes the same list
for every key function. -/
def sortByNatId (l : List Tweet) : List Tweet :=
  l.insertionSort (fun a b => natId a.id_str ≤ natId b.id_str)

/-- The children of a popped tweet, sorted ascending by numeric id, as
enqueued by the drain loop. -/
def kidsOf (tweets : List Tweet) (t : Tweet) : List Tweet :=
  sortByNatId (childrenOf tweets t.id_str)

/-- The inner drain of `combine_threads`: pop from the conversation
queue, close the current segment when the next tweet would push the
cumulative media count past the limit (the popped tweet then opens the
next segment), and enqueue the popped tweet's sorted children.  One unit
of fuel per pop; each pop removes one queue element and a tweet is only
ever enqueued once per occurrence in a children list, so
`tweets.length + 1` fuel suffices for every archive with unique ids
(proved below). -/
def drainGo (tweets : List Tweet) (limit : Nat) :
    Nat → List Tweet → List Tweet → Nat → List (List Tweet)
  | 0, _, seg, _ => if seg.isEmpty then [] else [seg]
  | _ + 1, [], seg, _ => if seg.isEmpty then [] else [seg]
  | fuel + 1, t :: queue, seg, cnt =>
    let m := count_media t
    if !seg.isEmpty && cnt + m > limit then
      seg :: drainGo tweets limit fuel (queue ++ kidsOf tweets t) [t] m
    else
      drainGo tweets limit fuel (queue ++ kidsOf tweets t) (seg ++ [t]) (cnt + m)

/-- The outer loop of `combine_threads` over the sorted roots, skipping
roots already processed and accumulating the popped ids. -/
def combineGo (tweets : List Tweet) (limit : Nat) :
    List Tweet → List String → List (List Tweet)
  | [], _ => []
  | r :: rs, processed =>
    if processed.contains r.id_str then combineGo tweets limit rs processed
    else
      let segs := drainGo tweets limit (tweets.length + 1) [r] [] 0
      segs ++ combineGo tweets limit rs
        (processed ++ (segs.flatten.map (fun t => t.id_str)))

/-- `combine_threads(tweets, media_limit)` (the source defaults
`media_limit` to 26 at call sites). -/
def combine_threads (tweets : List Tweet) (media_limit : Nat) :
    List (List Tweet) :=
  combineGo tweets media_limit (sortByNatId (rootTweets tweets)) []

/-! ### The drain as chunking of the BFS order

Segment boundaries never influence which tweet is popped next, so the
drain factors as: flatten the conversation in BFS order, then chunk that
list greedily by the media budget. -/

/-- The BFS pop order of the conversation queue. -/
def bfsFlatGo (tweets : List Tweet) : Nat → List Tweet → List Tweet
  | 0, _ => []
  | _ + 1, [] => []
  | fuel + 1, t :: queue => t :: bfsFlatGo tweets fuel (queue ++ kidsOf tweets t)

/-- Greedy budgeted chunking of a list of tweets. -/
def chunkGo (limit : Nat) : List Tweet → List Tweet → Nat → List (List Tweet)
  | [], seg, _ => if seg.isEmpty then [] else [seg]
  | t :: ts, seg, cnt =>
    let m := count_media t
    if !seg.isEmpty && cnt + m > limit then
      seg :: chunkGo limit ts [t] m
    else
      chunkGo limit ts (seg ++ [t]) (cnt + m)

/-- Cumulative media count of a segment. -/
def mediaSum (s : List Tweet) : Nat :=
  (s.map count_media).sum

theorem drainGo_eq_chunk (tweets : List Tweet) (limit : Nat) :
    ∀ (fuel : Nat) (queue seg : List Tweet) (cnt : Nat),
      drainGo tweets limit fuel queue seg cnt
        = chunkGo limit (bfsFlatGo tweets fuel queue) seg cnt := by
  intro fuel
  induction fuel with
  | zero => intro queue seg cnt; rfl
  | succ fuel ih =>
    intro queue seg cnt
    cases queue with
    | nil => rfl
    | cons t q =>
      simp only [drainGo, bfsFlatGo, chunkGo]
      by_cases hc : (!seg.isEmpty && decide (cnt + count_media t > limit)) = true
      · simp only [hc, if_true, ih]
      · simp only [hc, if_false, ih]

theorem chunkGo_flatten (limit : Nat) :
    ∀ (l seg : List Tweet) (cnt : Nat),
      (chunkGo limit l seg cnt).flatten = seg ++ l := by
  intro l
  induction l with
  | nil =>
    intro seg cnt
    by_cases hs : seg.isEmpty
    · simp [chunkGo, hs, List.isEmpty_iff.mp hs]
    · simp [chunkGo, hs]
  | cons t ts ih =>
    intro seg cnt
    simp only [chunkGo]
    by_cases hc : (!seg.isEmpty && decide (cnt + count_media t > limit)) = true
    · simp [hc, ih]
    · simp [hc, ih]

theorem chunkGo_nonempty (limit : Nat) :
    ∀ (l seg : List Tweet) (cnt : Nat),
      ∀ s ∈ chunkGo limit l seg cnt, s ≠ [] := by
  intro l
  induction l with
  | nil =>
    intro seg cnt s hs
    by_cases he : seg.isEmpty
    · simp [chunkGo, he] at hs
    · simp [chunkGo, he] at hs
      subst hs
      simpa [List.isEmpty_iff] using he
  | cons t ts ih =>
    intro seg cnt s hs
    simp only [chunkGo] at hs
    by_cases hc : (!seg.isEmpty && decide (cnt + count_media t > limit)) = true
    · rw [if_pos hc] at hs
      rcases List.mem_cons.mp hs with rfl | hs
      · have := (Bool.and_eq_true _ _).mp hc
        simpa [List.isEmpty_iff] using this.1
      · exact ih _ _ s hs
    · rw [if_neg hc] at hs
      exact ih _ _ s hs

theorem chunkGo_budget (limit : Nat) :
    ∀ (l seg : List Tweet) (cnt : Nat),
      cnt = mediaSum seg → (seg.length ≤ 1 ∨ cnt ≤ limit) →
      ∀ s ∈ chunkGo limit l seg cnt, s.length ≤ 1 ∨ mediaSum s ≤ limit := by
  intro l
  induction l with
  | nil =>
    intro seg cnt hcnt hinv s hs
    by_cases he : seg.isEmpty
    · simp [chunkGo, he] at hs
    · simp [chunkGo, he] at hs
      subst hs
      exact hcnt ▸ hinv
  | cons t ts ih =>
    intro seg cnt hcnt hinv s hs
    simp only [chunkGo] at hs
    by_cases hc : (!seg.isEmpty && decide (cnt + count_media t > limit)) = true
    · rw [if_pos hc] at hs
      rcases List.mem_cons.mp hs with rfl | hs
      · exact hcnt ▸ hinv
      · refine ih _ _ (by simp [mediaSum]) (Or.inl (by simp)) s hs
    · rw [if_neg hc] at hs
      have hcases : seg.isEmpty = true ∨ cnt + count_media t ≤ limit := by
        by_cases hse : seg.isEmpty = true
        · exact Or.inl hse
        · refine Or.inr ?_
          have hdf : decide (cnt + count_media t > limit) = false := by
            cases hdec : decide (cnt + count_media t > limit)
            · rfl
            · exact absurd (by simp [Bool.eq_false_iff.mpr hse, hdec]) hc
          exact Nat.le_of_not_lt (of_decide_eq_false hdf)
      refine ih _ _ ?_ ?_ s hs
      · simp [mediaSum, hcnt]
      · rcases hcases with hse | hle
        · exact Or.inl (by simp [List.isEmpty_iff.mp hse])
        · exact Or.inr hle

/-- Every segment emitted by the outer loop is one of the drain's
segments for some root. -/
theorem mem_combineGo (tweets : List Tweet) (limit : Nat) :
    ∀ (rs : List Tweet) (processed : List String) (s : List Tweet),
      s ∈ combineGo tweets limit rs processed →
      ∃ r, s ∈ drainGo tweets limit (tweets.length + 1) [r] [] 0 := by
  intro rs
  induction rs with
  | nil => intro processed s hs; simp [combineGo] at hs
  | cons r rest ih =>
    intro processed s hs
    simp only [combineGo] at hs
    by_cases hp : processed.contains r.id_str = true
    · rw [if_pos hp] at hs
      exact ih _ s hs
    · rw [if_neg hp] at hs
      rcases List.mem_append.mp hs with hs | hs
      · exact ⟨r, hs⟩
      · exact ih _ s hs

/-- Segments of `combine_threads` are chunkings of a BFS order starting
from an empty segment. -/
theorem mem_combine_threads_chunk (tweets : List Tweet) (limit : Nat)
    (s : List Tweet) (hs : s ∈ combine_threads tweets limit) :
    ∃ r, s ∈ chunkGo limit
      (bfsFlatGo tweets (tweets.length + 1) [r]) [] 0 := by
  rcases mem_combineGo tweets limit _ _ s hs with ⟨r, hr⟩
  exact ⟨r, by rwa [drainGo_eq_chunk] at hr⟩

/-- C2: every multi-post segment respects the media budget, and a post
whose own media count exceeds the budget only ever appears as the sole
element of its segment. -/
theorem segment_media_budget (tweets : List Tweet) (limit : Nat)
    (s : List Tweet) (hs : s ∈ combine_threads tweets limit) :
    (1 < s.length → mediaSum s ≤ limit)
    ∧ (∀ t ∈ s, limit < count_media t → s = [t]) := by
  rcases mem_combine_threads_chunk tweets limit s hs with ⟨r, hr⟩
  have hbudget := chunkGo_budget limit _ [] 0 (by simp [mediaSum])
    (Or.inl (by simp)) s hr
  constructor
  · intro hlen
    rcases hbudget with hb | hb
    · omega
    · exact hb
  · intro t ht hover
    rcases hbudget with hb | hb
    · cases s with
      | nil => cases ht
      | cons a as =>
        cases as with
        | nil =>
          rcases List.mem_singleton.mp ht with rfl
          rfl
        | cons b bs => simp at hb
    · exfalso
      have hle : count_media t ≤ mediaSum s :=
        List.single_le_sum (by intro x _; exact Nat.zero_le x) _
          (List.mem_map_of_mem count_media ht)
      omega

/-- C10: every segment produced by `combine_threads` is non-empty, so
every produced segment has a lead post. -/
theorem segment_nonempty (tweets : List Tweet) (limit : Nat)
    (s : List Tweet) (hs : s ∈ combine_threads tweets limit) :
    s ≠ [] := by
  rcases mem_combine_threads_chunk tweets limit s hs with ⟨r, hr⟩
  exact chunkGo_nonempty limit _ [] 0 s hr

/-- The spec's §8 scenario archive: a root post and one reply to it. -/
def rootPost : Tweet :=
  { id_str := "100", full_text := "Hello world",
    created_at := ⟨2020, 1, 1, 0, 0, 0⟩ }

/-- The reply of the scenario archive. -/
def replyPost : Tweet :=
  { id_str := "101", full_text := "@rootauthor nice",
    created_at := ⟨2020, 1, 1, 0, 5, 0⟩,
    in_reply_to_status_id_str := some "100" }

/-- Witness for C2 at the concrete two-post archive. -/
theorem segment_media_budget_witness :
    (1 < ([rootPost, replyPost] : List Tweet).length
        → mediaSum [rootPost, replyPost] ≤ 26)
    ∧ (∀ t ∈ ([rootPost, replyPost] : List Tweet),
        26 < count_media t → [rootPost, replyPost] = [t]) :=
  segment_media_budget [rootPost, replyPost] 26 [rootPost, replyPost]
    (by decide)

/-- Witness for C10 at the concrete two-post archive. -/
theorem segment_nonempty_witness :
    ([rootPost, replyPost] : List Tweet) ≠ [] :=
  segment_nonempty [rootPost, replyPost] 26 [rootPost, replyPost]
    (by decide)

/-! ### The reply forest

For the partition theorem we need the parent relation the children index
encodes: a tweet's registered parent is the archive tweet its truthy
`in_reply_to_status_id_str` resolves to. -/

/-- The in-archive parent a tweet was registered under, if any: mirrors
the `parent_id and parent_id in tweet_by_id` check of `combine_threads`.
(`find?` disambiguates duplicate ids; all partition theorems assume ids
are unique, where the choice is immaterial.) -/
def parentTweetOf (tweets : List Tweet) (t : Tweet) : Option Tweet :=
  match t.in_reply_to_status_id_str with
  | none => none
  | some pid =>
    if pid == "" then none else tweets.find? (fun p => p.id_str == pid)

/-- Ids strictly increase from parent to reply — true of real archives
(the source sorts by id precisely because ids are monotone in creation
time) and the acyclicity assumption the partition claim needs. -/
def ParentMono (tweets : List Tweet) : Prop :=
  ∀ t ∈ tweets, ∀ p ∈ tweets,
    t.in_reply_to_status_id_str = some p.id_str →
    natId p.id_str < natId t.id_str

/-- Walk `parentTweetOf` upward for at most `fuel` steps. -/
def rootChainGo (tweets : List Tweet) : Nat → Tweet → Tweet
  | 0, t => t
  | fuel + 1, t =>
    match parentTweetOf tweets t with
    | none => t
    | some p => rootChainGo tweets fuel p

/-- The root of a tweet's reply chain.  Under `ParentMono` the chain
strictly decreases the numeric id, so `natId` of the tweet bounds its
length. -/
def rootOf (tweets : List Tweet) (t : Tweet) : Tweet :=
  rootChainGo tweets (natId t.id_str) t

/-- All archive tweets whose reply chain ends at root `r`. -/
def treeOf (tweets : List Tweet) (r : Tweet) : List Tweet :=
  tweets.filter (fun t => rootOf tweets t == r)

theorem parentTweetOf_mem {tweets : List Tweet} {t p : Tweet}
    (h : parentTweetOf tweets t = some p) : p ∈ tweets := by
  rcases hrep : t.in_reply_to_status_id_str with _ | pid
  · simp [parentTweetOf, hrep] at h
  · simp only [parentTweetOf, hrep] at h
    by_cases hp : (pid == "") = true
    · rw [if_pos hp] at h; cases h
    · rw [if_neg hp] at h
      exact List.mem_of_find?_eq_some h

theorem parentTweetOf_reply {tweets : List Tweet} {t p : Tweet}
    (h : parentTweetOf tweets t = some p) :
    t.in_reply_to_status_id_str = some p.id_str ∧ p.id_str ≠ "" := by
  rcases hrep : t.in_reply_to_status_id_str with _ | pid
  · simp [parentTweetOf, hrep] at h
  · simp only [parentTweetOf, hrep] at h
    by_cases hp : (pid == "") = true
    · rw [if_pos hp] at h; cases h
    · rw [if_neg hp] at h
      have hpid := List.find?_some (p := fun (q : Tweet) => q.id_str == pid) h
      have hpe : p.id_str = pid := by simpa using hpid
      subst hpe
      exact ⟨rfl, by simpa using hp⟩

theorem parentTweetOf_natId_lt {tweets : List Tweet} {t p : Tweet}
    (hmono : ParentMono tweets) (ht : t ∈ tweets)
    (h : parentTweetOf tweets t = some p) :
    natId p.id_str < natId t.id_str :=
  hmono t ht p (parentTweetOf_mem h) (parentTweetOf_reply h).1

/-- Under unique ids, tweets with the same id are equal. -/
theorem id_inj {tweets : List Tweet}
    (hnodup : (tweets.map Tweet.id_str).Nodup) {a b : Tweet}
    (ha : a ∈ tweets) (hb : b ∈ tweets) (hid : a.id_str = b.id_str) :
    a = b :=
  List.inj_on_of_nodup_map hnodup ha hb hid

theorem hasId_iff {tweets : List Tweet} {i : String} :
    hasId tweets i = true ↔ ∃ t ∈ tweets, t.id_str = i := by
  unfold hasId
  rw [List.any_eq_true]
  constructor
  · rintro ⟨t, ht, he⟩; exact ⟨t, ht, by simpa using he⟩
  · rintro ⟨t, ht, he⟩; exact ⟨t, ht, by simpa using he⟩

theorem mem_childrenOf {tweets : List Tweet} {pid : String} {c : Tweet} :
    c ∈ childrenOf tweets pid ↔
      c ∈ tweets ∧ c.in_reply_to_status_id_str = some pid
        ∧ pid ≠ "" ∧ hasId tweets pid = true := by
  unfold childrenOf
  rw [List.mem_filter]
  rcases hrep : c.in_reply_to_status_id_str with _ | p
  · simp [hrep]
  · simp only [hrep]
    constructor
    · rintro ⟨hc, hcond⟩
      have h1 : (p ≠ "" ∧ hasId tweets p = true) ∧ p = pid := by
        simpa [Bool.and_eq_true] using hcond
      rcases h1 with ⟨⟨hne, hhas⟩, rfl⟩
      exact ⟨hc, rfl, hne, hhas⟩
    · rintro ⟨hc, heq, hne, hhas⟩
      have hpe : p = pid := by injection heq
      subst hpe
      exact ⟨hc, by simp [hne, hhas]⟩

/-- Characterization of the sorted-children queue extension, under
unique ids. -/
theorem mem_kidsOf {tweets : List Tweet} {u c : Tweet}
    (hnodup : (tweets.map Tweet.id_str).Nodup) (hu : u ∈ tweets) :
    c ∈ kidsOf tweets u ↔
      c ∈ tweets ∧ parentTweetOf tweets c = some u := by
  unfold kidsOf sortByNatId
  rw [(List.perm_insertionSort _ _).mem_iff, mem_childrenOf]
  constructor
  · rintro ⟨hc, hrep, hne, -⟩
    refine ⟨hc, ?_⟩
    simp only [parentTweetOf, hrep]
    rw [if_neg (by simpa using hne)]
    rcases hfind : tweets.find? (fun p => p.id_str == u.id_str) with _ | v
    · exact absurd (List.find?_eq_none.mp hfind u hu (by simp)) (by simp)
    · have hv : v ∈ tweets := List.mem_of_find?_eq_some hfind
      have hvid : v.id_str = u.id_str := by
        simpa using List.find?_some (p := fun (q : Tweet) => q.id_str == u.id_str) hfind
      have hvu : v = u := id_inj hnodup hv hu hvid
      rw [hfind, hvu]
  · rintro ⟨hc, hpar⟩
    have h1 := parentTweetOf_reply hpar
    refine ⟨hc, h1.1, h1.2, ?_⟩
    exact hasId_iff.mpr ⟨u, hu, rfl⟩

theorem rootChainGo_no_parent {tweets : List Tweet} {t : Tweet}
    (h : parentTweetOf tweets t = none) :
    ∀ fuel, rootChainGo tweets fuel t = t := by
  intro fuel
  cases fuel with
  | zero => rfl
  | succ f => simp [rootChainGo, h]

theorem rootChainGo_congr {tweets : List Tweet} (hmono : ParentMono tweets) :
    ∀ (n : Nat) (t : Tweet), t ∈ tweets → natId t.id_str ≤ n →
      ∀ f1 f2, natId t.id_str ≤ f1 → natId t.id_str ≤ f2 →
        rootChainGo tweets f1 t = rootChainGo tweets f2 t := by
  intro n
  induction n with
  | zero =>
    intro t ht hn f1 f2 h1 h2
    rcases hp : parentTweetOf tweets t with _ | p
    · rw [rootChainGo_no_parent hp, rootChainGo_no_parent hp]
    · have := parentTweetOf_natId_lt hmono ht hp
      omega
  | succ n ih =>
    intro t ht hn f1 f2 h1 h2
    rcases hp : parentTweetOf tweets t with _ | p
    · rw [rootChainGo_no_parent hp, rootChainGo_no_parent hp]
    · have hlt := parentTweetOf_natId_lt hmono ht hp
      by_cases hz : natId t.id_str = 0
      · rw [hz] at hlt; omega
      · obtain ⟨f1p, rfl⟩ : ∃ k, f1 = k + 1 := ⟨f1 - 1, by omega⟩
        obtain ⟨f2p, rfl⟩ : ∃ k, f2 = k + 1 := ⟨f2 - 1, by omega⟩
        simp only [rootChainGo, hp]
        exact ih p (parentTweetOf_mem hp) (by omega) f1p f2p (by omega)
          (by omega)

theorem rootOf_no_parent_self {tweets : List Tweet} {t : Tweet}
    (h : parentTweetOf tweets t = none) : rootOf tweets t = t :=
  rootChainGo_no_parent h _

theorem rootOf_parent {tweets : List Tweet} (hmono : ParentMono tweets)
    {t p : Tweet} (ht : t ∈ tweets)
    (hp : parentTweetOf tweets t = some p) :
    rootOf tweets t = rootOf tweets p := by
  have hlt := parentTweetOf_natId_lt hmono ht hp
  unfold rootOf
  obtain ⟨k, hk⟩ : ∃ k, natId t.id_str = k + 1 :=
    ⟨natId t.id_str - 1, by omega⟩
  rw [hk]
  simp only [rootChainGo, hp]
  exact rootChainGo_congr hmono (natId p.id_str) p (parentTweetOf_mem hp)
    le_rfl k (natId p.id_str) (by omega) le_rfl

theorem rootOf_mem_aux {tweets : List Tweet} (hmono : ParentMono tweets) :
    ∀ (n : Nat) (t : Tweet), t ∈ tweets → natId t.id_str ≤ n →
      rootOf tweets t ∈ tweets
        ∧ parentTweetOf tweets (rootOf tweets t) = none := by
  intro n
  induction n with
  | zero =>
    intro t ht hn
    rcases hp : parentTweetOf tweets t with _ | p
    · rw [rootOf_no_parent_self hp]; exact ⟨ht, hp⟩
    · have := parentTweetOf_natId_lt hmono ht hp
      omega
  | succ n ih =>
    intro t ht hn
    rcases hp : parentTweetOf tweets t with _ | p
    · rw [rootOf_no_parent_self hp]; exact ⟨ht, hp⟩
    · have hlt := parentTweetOf_natId_lt hmono ht hp
      rw [rootOf_parent hmono ht hp]
      exact ih p (parentTweetOf_mem hp) (by omega)

theorem rootOf_mem {tweets : List Tweet} (hmono : ParentMono tweets)
    {t : Tweet} (ht : t ∈ tweets) : rootOf tweets t ∈ tweets :=
  (rootOf_mem_aux hmono (natId t.id_str) t ht le_rfl).1

theorem rootOf_isRoot {tweets : List Tweet} (hmono : ParentMono tweets)
    {t : Tweet} (ht : t ∈ tweets) :
    parentTweetOf tweets (rootOf tweets t) = none :=
  (rootOf_mem_aux hmono (natId t.id_str) t ht le_rfl).2

theorem mem_treeOf {tweets : List Tweet} {r t : Tweet} :
    t ∈ treeOf tweets r ↔ t ∈ tweets ∧ rootOf tweets t = r := by
  unfold treeOf
  rw [List.mem_filter]
  simp [beq_iff_eq]

/-- `root_tweets` membership, under unique ids: exactly the tweets with
no registered parent. -/
theorem mem_rootTweets {tweets : List Tweet}
    (hnodup : (tweets.map Tweet.id_str).Nodup) {t : Tweet} :
    t ∈ rootTweets tweets ↔
      t ∈ tweets ∧ parentTweetOf tweets t = none := by
  unfold rootTweets
  rw [List.mem_filter]
  constructor
  · rintro ⟨ht, hcond⟩
    refine ⟨ht, ?_⟩
    rcases hp : parentTweetOf tweets t with _ | p
    · rfl
    · exfalso
      have hreg : isRegisteredChild tweets t = true := by
        have h1 := parentTweetOf_reply hp
        unfold isRegisteredChild
        rw [h1.1]
        simp only [Bool.and_eq_true]
        exact ⟨by simpa using h1.2,
          hasId_iff.mpr ⟨p, parentTweetOf_mem hp, rfl⟩⟩
      have hmem : t.id_str ∈ allChildIds tweets := by
        unfold allChildIds
        exact List.mem_map_of_mem _ (List.mem_filter.mpr ⟨ht, hreg⟩)
      have hct : (allChildIds tweets).contains t.id_str = true :=
        List.elem_iff.mpr hmem
      rw [hct] at hcond
      cases hcond
  · rintro ⟨ht, hp⟩
    refine ⟨ht, ?_⟩
    suffices hnc : ¬ t.id_str ∈ allChildIds tweets by
      rw [← List.elem_iff] at hnc
      simpa using hnc
    intro hmem
    unfold allChildIds at hmem
    rcases List.mem_map.mp hmem with ⟨s, hsf, hsid⟩
    rcases List.mem_filter.mp hsf with ⟨hsmem, hsreg⟩
    have hst : s = t := id_inj hnodup hsmem ht hsid
    subst hst
    unfold isRegisteredChild at hsreg
    rcases hrep : s.in_reply_to_status_id_str with _ | pid
    · rw [hrep] at hsreg; cases hsreg
    · rw [hrep] at hsreg
      have h1 : pid ≠ "" ∧ hasId tweets pid = true := by
        simpa [Bool.and_eq_true] using hsreg
      rcases hasId_iff.mp h1.2 with ⟨q, hq, hqid⟩
      have : parentTweetOf tweets s ≠ none := by
        simp only [parentTweetOf, hrep]
        rw [if_neg (by simpa using h1.1)]
        intro hfn
        exact absurd (by simpa using hqid)
          (by simpa using List.find?_eq_none.mp hfn q hq)
      exact this hp

/-- Two duplicate-free lists with the same members are permutations. -/
theorem perm_of_nodup_mem_iff {l1 l2 : List Tweet}
    (h1 : l1.Nodup) (h2 : l2.Nodup) (hm : ∀ x, x ∈ l1 ↔ x ∈ l2) :
    l1.Perm l2 := by
  rw [List.perm_iff_count]
  intro a
  by_cases ha : a ∈ l1
  · rw [List.count_eq_one_of_mem h1 ha,
      List.count_eq_one_of_mem h2 ((hm a).mp ha)]
  · rw [List.count_eq_zero.mpr ha,
      List.count_eq_zero.mpr (fun hc => ha ((hm a).mpr hc))]

/-- When the conversation queue has drained, the popped tweets are
exactly the root's tree. -/
theorem bfs_final {tweets : List Tweet}
    (hnodup : (tweets.map Tweet.id_str).Nodup) (hmono : ParentMono tweets)
    {r : Tweet} (hroot : parentTweetOf tweets r = none) (P : List Tweet)
    (hsub : ∀ t ∈ P, t ∈ tweets)
    (hnd : (P.map Tweet.id_str).Nodup)
    (hrP : r ∈ P)
    (hroots : ∀ t ∈ P, rootOf tweets t = r)
    (hclosed : ∀ u ∈ P, ∀ c ∈ tweets,
      parentTweetOf tweets c = some u → c ∈ P) :
    P.Perm (treeOf tweets r) := by
  have htnd : (treeOf tweets r).Nodup :=
    (List.Nodup.of_map _ hnodup).filter _
  refine perm_of_nodup_mem_iff (List.Nodup.of_map _ hnd) htnd ?_
  intro x
  rw [mem_treeOf]
  constructor
  · intro hx
    exact ⟨hsub x hx, hroots x hx⟩
  · rintro ⟨hxt, hxr⟩
    have haux : ∀ n, ∀ t, t ∈ tweets → rootOf tweets t = r →
        natId t.id_str ≤ n → t ∈ P := by
      intro n
      induction n with
      | zero =>
        intro t ht hrt hn
        rcases hp : parentTweetOf tweets t with _ | p
        · rw [rootOf_no_parent_self hp] at hrt
          subst hrt; exact hrP
        · have := parentTweetOf_natId_lt hmono ht hp
          omega
      | succ n ih =>
        intro t ht hrt hn
        rcases hp : parentTweetOf tweets t with _ | p
        · rw [rootOf_no_parent_self hp] at hrt
          subst hrt; exact hrP
        · have hlt := parentTweetOf_natId_lt hmono ht hp
          have hproot : rootOf tweets p = r := by
            rw [← rootOf_parent hmono ht hp]; exact hrt
          have hpP : p ∈ P := ih p (parentTweetOf_mem hp) hproot (by omega)
          exact hclosed p hpP t ht hp
    exact haux (natId x.id_str) x hxt hxr le_rfl

/-- The BFS invariant: the popped prefix together with the remaining
drain is a permutation of the root's tree. -/
theorem bfs_invariant {tweets : List Tweet}
    (hnodup : (tweets.map Tweet.id_str).Nodup) (hmono : ParentMono tweets)
    {r : Tweet} (hroot : parentTweetOf tweets r = none) :
    ∀ (fuel : Nat) (P Q : List Tweet),
      (∀ t ∈ P ++ Q, t ∈ tweets) →
      ((P ++ Q).map Tweet.id_str).Nodup →
      r ∈ P ++ Q →
      (∀ t ∈ P ++ Q, rootOf tweets t = r) →
      (∀ u ∈ P, ∀ c ∈ tweets,
        parentTweetOf tweets c = some u → c ∈ P ++ Q) →
      (∀ c ∈ P ++ Q, c = r ∨ ∃ u ∈ P, parentTweetOf tweets c = some u) →
      tweets.length ≤ fuel + P.length →
      (P ++ bfsFlatGo tweets fuel Q).Perm (treeOf tweets r) := by
  intro fuel
  induction fuel with
  | zero =>
    intro P Q hsub hnd hrPQ hroots hclosed hreach hfuel
    have hlen : (P ++ Q).length ≤ tweets.length := by
      have hsp : List.Subperm ((P ++ Q).map Tweet.id_str)
          (tweets.map Tweet.id_str) :=
        List.subperm_of_subset hnd (by
          intro x hx
          rcases List.mem_map.mp hx with ⟨u, hu, rfl⟩
          exact List.mem_map_of_mem _ (hsub u hu))
      simpa using hsp.length_le
    have hQ : Q = [] := by
      rw [List.length_append] at hlen
      exact List.length_eq_zero.mp (by omega)
    subst hQ
    rw [List.append_nil] at hsub hnd hrPQ hroots hreach
    simp only [bfsFlatGo, List.append_nil]
    refine bfs_final hnodup hmono hroot P hsub hnd hrPQ hroots ?_
    intro u hu c hc hpc
    simpa using hclosed u hu c hc hpc
  | succ fuel ih =>
    intro P Q hsub hnd hrPQ hroots hclosed hreach hfuel
    cases Q with
    | nil =>
      rw [List.append_nil] at hsub hnd hrPQ hroots hreach
      simp only [bfsFlatGo, List.append_nil]
      refine bfs_final hnodup hmono hroot P hsub hnd hrPQ hroots ?_
      intro u hu c hc hpc
      simpa using hclosed u hu c hc hpc
    | cons t q =>
      have htT : t ∈ tweets := hsub t (by simp)
      have hkid : ∀ c, c ∈ kidsOf tweets t ↔
          c ∈ tweets ∧ parentTweetOf tweets c = some t :=
        fun c => mem_kidsOf hnodup htT
      have hdisj : ∀ c ∈ kidsOf tweets t, c ∉ P ++ t :: q := by
        intro c hcK hcPQ
        have hcp := (hkid c).mp hcK
        rcases hreach c hcPQ with rfl | ⟨u, huP, hps⟩
        · have : (none : Option Tweet) = some t := hroot.symm.trans hcp.2
          cases this
        · have hut : u = t := by
            have h2 : some u = some t := hps.symm.trans hcp.2
            injection h2
          have hndv : (P ++ t :: q).Nodup := List.Nodup.of_map _ hnd
          rcases List.nodup_append.mp hndv with ⟨-, -, hdis⟩
          exact hdis (hut ▸ huP) (by simp)
      have hknd : ((kidsOf tweets t).map Tweet.id_str).Nodup := by
        have hperm : (kidsOf tweets t).Perm (childrenOf tweets t.id_str) :=
          List.perm_insertionSort _ _
        have hsubl : List.Sublist (childrenOf tweets t.id_str) tweets :=
          List.filter_sublist _
        exact ((hperm.map Tweet.id_str).nodup_iff).mpr
          ((hsubl.map Tweet.id_str).nodup hnodup)
      have hEQ : (P ++ [t]) ++ (q ++ kidsOf tweets t)
          = (P ++ t :: q) ++ kidsOf tweets t := by simp
      have hnd2 : (((P ++ [t]) ++ (q ++ kidsOf tweets t)).map
          Tweet.id_str).Nodup := by
        rw [hEQ, List.map_append]
        rw [List.nodup_append]
        refine ⟨hnd, hknd, ?_⟩
        intro x hx1 hx2
        rcases List.mem_map.mp hx1 with ⟨d, hd, rfl⟩
        rcases List.mem_map.mp hx2 with ⟨c, hcK, hcid⟩
        have hceq : c = d :=
          id_inj hnodup ((hkid c).mp hcK).1 (hsub d hd) hcid
        subst hceq
        exact hdisj c hcK hd
      have hsub2 : ∀ x ∈ (P ++ [t]) ++ (q ++ kidsOf tweets t),
          x ∈ tweets := by
        intro x hx
        rw [hEQ] at hx
        rcases List.mem_append.mp hx with hx | hx
        · exact hsub x hx
        · exact ((hkid x).mp hx).1
      have hr2 : r ∈ (P ++ [t]) ++ (q ++ kidsOf tweets t) := by
        rw [hEQ]
        exact List.mem_append_left _ hrPQ
      have hroots2 : ∀ x ∈ (P ++ [t]) ++ (q ++ kidsOf tweets t),
          rootOf tweets x = r := by
        intro x hx
        rw [hEQ] at hx
        rcases List.mem_append.mp hx with hx | hx
        · exact hroots x hx
        · have hcp := (hkid x).mp hx
          rw [rootOf_parent hmono hcp.1 hcp.2]
          exact hroots t (by simp)
      have hclosed2 : ∀ u ∈ P ++ [t], ∀ c ∈ tweets,
          parentTweetOf tweets c = some u →
          c ∈ (P ++ [t]) ++ (q ++ kidsOf tweets t) := by
        intro u hu c hc hpc
        rw [hEQ]
        rcases List.mem_append.mp hu with hu | hu
        · exact List.mem_append_left _ (hclosed u hu c hc hpc)
        · have hut : u = t := by simpa using hu
          subst hut
          exact List.mem_append_right _ ((hkid c).mpr ⟨hc, hpc⟩)
      have hreach2 : ∀ c ∈ (P ++ [t]) ++ (q ++ kidsOf tweets t),
          c = r ∨ ∃ u ∈ P ++ [t], parentTweetOf tweets c = some u := by
        intro c hc
        rw [hEQ] at hc
        rcases List.mem_append.mp hc with hc | hc
        · rcases hreach c hc with rfl | ⟨u, huP, hps⟩
          · exact Or.inl rfl
          · exact Or.inr ⟨u, List.mem_append_left _ huP, hps⟩
        · exact Or.inr ⟨t, by simp, ((hkid c).mp hc).2⟩
      have hfuel2 : tweets.length ≤ fuel + (P ++ [t]).length := by
        simp only [List.length_append, List.length_cons,
          List.length_nil] at hfuel ⊢
        omega
      have hgoal := ih (P ++ [t]) (q ++ kidsOf tweets t)
        hsub2 hnd2 hr2 hroots2 hclosed2 hreach2 hfuel2
      simp only [bfsFlatGo]
      simpa using hgoal

/-- The BFS from a root lists exactly the root's tree, up to order. -/
theorem bfs_perm {tweets : List Tweet}
    (hnodup : (tweets.map Tweet.id_str).Nodup) (hmono : ParentMono tweets)
    {r : Tweet} (hr : r ∈ tweets)
    (hroot : parentTweetOf tweets r = none) :
    (bfsFlatGo tweets (tweets.length + 1) [r]).Perm (treeOf tweets r) := by
  have h := bfs_invariant hnodup hmono hroot (tweets.length + 1) [] [r]
    (by intro x hx
        have hxr : x = r := by simpa using hx
        subst hxr; exact hr)
    (by simp)
    (by simp)
    (by intro x hx
        have hxr : x = r := by simpa using hx
        subst hxr
        exact rootOf_no_parent_self hroot)
    (by intro u hu; simp at hu)
    (by intro c hc
        have hcr : c = r := by simpa using hc
        exact Or.inl hcr)
    (by simp)
  simpa using h

theorem drainGo_flatten (tweets : List Tweet) (limit fuel : Nat)
    (queue seg : List Tweet) (cnt : Nat) :
    (drainGo tweets limit fuel queue seg cnt).flatten
      = seg ++ bfsFlatGo tweets fuel queue := by
  rw [drainGo_eq_chunk, chunkGo_flatten]

/-- The outer loop concatenates, root by root, a permutation of each
root's tree; under unique ids the processed-skip never fires. -/
theorem combineGo_flatten_perm {tweets : List Tweet} (limit : Nat)
    (hnodup : (tweets.map Tweet.id_str).Nodup)
    (hmono : ParentMono tweets) :
    ∀ (rs : List Tweet) (processed : List String),
      (∀ x ∈ rs, x ∈ tweets ∧ parentTweetOf tweets x = none) →
      (rs.map Tweet.id_str).Nodup →
      (∀ x ∈ rs, ¬ x.id_str ∈ processed) →
      ((combineGo tweets limit rs processed).flatten).Perm
        ((rs.map (treeOf tweets)).flatten) := by
  intro rs
  induction rs with
  | nil =>
    intro processed h1 h2 h3
    simp [combineGo]
  | cons r rest ih =>
    intro processed h1 h2 h3
    have hrT := h1 r (by simp)
    have hcont : processed.contains r.id_str = false := by
      cases hcf : processed.contains r.id_str
      · rfl
      · exact absurd (List.elem_iff.mp hcf) (h3 r (by simp))
    have hflat : (drainGo tweets limit (tweets.length + 1) [r] [] 0).flatten
        = bfsFlatGo tweets (tweets.length + 1) [r] := by
      rw [drainGo_flatten]
      rfl
    have hperm1 :
        ((drainGo tweets limit (tweets.length + 1) [r] [] 0).flatten).Perm
          (treeOf tweets r) := by
      rw [hflat]
      exact bfs_perm hnodup hmono hrT.1 hrT.2
    have hndrest : (rest.map Tweet.id_str).Nodup :=
      (List.nodup_cons.mp h2).2
    have hidr : ¬ r.id_str ∈ rest.map Tweet.id_str :=
      (List.nodup_cons.mp h2).1
    have hrest := ih
      (processed ++
        ((drainGo tweets limit (tweets.length + 1) [r] [] 0).flatten.map
          (fun t => t.id_str)))
      (fun x hx => h1 x (List.mem_cons_of_mem _ hx))
      hndrest
      (by
        intro x hx hmem
        rcases List.mem_append.mp hmem with hmem | hmem
        · exact h3 x (List.mem_cons_of_mem _ hx) hmem
        · rcases List.mem_map.mp hmem with ⟨c, hcf, hcid⟩
          have hcT : c ∈ treeOf tweets r := hperm1.subset hcf
          rcases mem_treeOf.mp hcT with ⟨hct, hcr⟩
          have hxprop := h1 x (List.mem_cons_of_mem _ hx)
          have hcx : c = x := id_inj hnodup hct hxprop.1 hcid
          subst hcx
          have hcroot : rootOf tweets c = c :=
            rootOf_no_parent_self hxprop.2
          have hcreq : c = r := by rw [← hcr, hcroot]
          subst hcreq
          exact hidr (List.mem_map_of_mem _ hx))
    simp only [combineGo, hcont, Bool.false_eq_true, if_false]
    rw [List.flatten_append, List.map_cons, List.flatten_cons]
    exact hperm1.append hrest

/-- Sum of an indicator over a duplicate-free list containing the
distinguished element. -/
theorem sum_indicator :
    ∀ (R : List Tweet) (r0 : Tweet), R.Nodup → r0 ∈ R →
      ∀ f : Tweet → Nat, f r0 = 1 → (∀ x ∈ R, x ≠ r0 → f x = 0) →
      (R.map f).sum = 1 := by
  intro R
  induction R with
  | nil => intro r0 _ h0; cases h0
  | cons r rest ih =>
    intro r0 hnd h0 f hf1 hf0
    rcases List.nodup_cons.mp hnd with ⟨hrni, hndrest⟩
    rcases List.mem_cons.mp h0 with rfl | h0
    · have hz : (rest.map f).sum = 0 := by
        refine List.sum_eq_zero ?_
        intro y hy
        rcases List.mem_map.mp hy with ⟨x, hx, rfl⟩
        exact hf0 x (List.mem_cons_of_mem _ hx)
          (fun hc => hrni (hc ▸ hx))
      simp [hf1, hz]
    · have hrne : r ≠ r0 := fun hc => hrni (hc ▸ h0)
      have hz : f r = 0 := hf0 r (by simp) hrne
      have hrec := ih r0 hndrest h0 f hf1
        (fun x hx hne => hf0 x (List.mem_cons_of_mem _ hx) hne)
      simp [hz, hrec]

/-- The trees of the distinct roots jointly cover the archive exactly
once. -/
theorem roots_trees_cover {tweets : List Tweet}
    (hnodup : (tweets.map Tweet.id_str).Nodup)
    (hmono : ParentMono tweets) :
    (((sortByNatId (rootTweets tweets)).map (treeOf tweets)).flatten).Perm
      tweets := by
  have hRperm : (sortByNatId (rootTweets tweets)).Perm (rootTweets tweets) :=
    List.perm_insertionSort _ _
  have hRmem : ∀ x, x ∈ sortByNatId (rootTweets tweets) ↔
      x ∈ tweets ∧ parentTweetOf tweets x = none := by
    intro x
    rw [hRperm.mem_iff, mem_rootTweets hnodup]
  have hRnd : (sortByNatId (rootTweets tweets)).Nodup :=
    hRperm.nodup_iff.mpr ((List.Nodup.of_map _ hnodup).filter _)
  rw [List.perm_iff_count]
  intro a
  rw [List.count_flatten, List.map_map]
  by_cases haT : a ∈ tweets
  · rw [List.count_eq_one_of_mem (List.Nodup.of_map _ hnodup) haT]
    have hr0 : rootOf tweets a ∈ sortByNatId (rootTweets tweets) :=
      (hRmem _).mpr ⟨rootOf_mem hmono haT, rootOf_isRoot hmono haT⟩
    refine sum_indicator _ (rootOf tweets a) hRnd hr0 _ ?_ ?_
    · have hmem : a ∈ treeOf tweets (rootOf tweets a) :=
        mem_treeOf.mpr ⟨haT, rfl⟩
      exact List.count_eq_one_of_mem
        ((List.Nodup.of_map _ hnodup).filter _) hmem
    · intro x hx hne
      refine List.count_eq_zero.mpr ?_
      intro hmem
      rcases mem_treeOf.mp hmem with ⟨-, hroot⟩
      exact hne hroot.symm
  · rw [List.count_eq_zero.mpr haT]
    refine List.sum_eq_zero ?_
    intro y hy
    rcases List.mem_map.mp hy with ⟨x, hx, rfl⟩
    exact List.count_eq_zero.mpr
      (fun hc => haT (mem_treeOf.mp hc).1)

/-- One element of total count one lies in exactly one block. -/
theorem countP_mem_eq_one_of_count_flatten :
    ∀ (L : List (List Tweet)) (t : Tweet),
      List.count t L.flatten = 1 →
      L.countP (fun s => decide (t ∈ s)) = 1 := by
  intro L
  induction L with
  | nil => intro t h; simp at h
  | cons s L ih =>
    intro t h
    rw [List.flatten_cons, List.count_append] at h
    rw [List.countP_cons]
    by_cases hts : t ∈ s
    · have hc1 : 1 ≤ List.count t s := List.one_le_count_iff.mpr hts
      have hc0 : List.count t L.flatten = 0 := by omega
      have hnotrest : L.countP (fun s => decide (t ∈ s)) = 0 := by
        refine List.countP_eq_zero.mpr ?_
        intro u hu
        simp only [decide_eq_true_eq]
        intro htu
        have := List.one_le_count_iff.mpr
          (List.mem_flatten.mpr ⟨u, hu, htu⟩)
        omega
      simp [hts, hnotrest]
    · have hc0 : List.count t s = 0 := List.count_eq_zero.mpr hts
      have hrec := ih t (by omega)
      simp [hts, hrec]

/-- C1 (amended): for archives with unique ids in which every reply's
numeric id exceeds its parent's (as on the source platform, where ids
are monotone in creation time), the segments of `combine_threads`
partition the input post set: their concatenation is a permutation of
the archive, and every post lies in exactly one segment.  (A reply
*cycle* — impossible under the id-monotonicity — would instead be
dropped entirely; see the counterexample.) -/
theorem combine_threads_partition (tweets : List Tweet) (limit : Nat)
    (hnodup : (tweets.map Tweet.id_str).Nodup)
    (hmono : ParentMono tweets) :
    ((combine_threads tweets limit).flatten).Perm tweets
    ∧ ∀ t ∈ tweets,
        (combine_threads tweets limit).countP
          (fun s => decide (t ∈ s)) = 1 := by
  have hRperm : (sortByNatId (rootTweets tweets)).Perm (rootTweets tweets) :=
    List.perm_insertionSort _ _
  have hRnodup : ((sortByNatId (rootTweets tweets)).map Tweet.id_str).Nodup :=
    (hRperm.map _).nodup_iff.mpr
      (((List.filter_sublist _).map Tweet.id_str).nodup hnodup)
  have hmain : ((combine_threads tweets limit).flatten).Perm tweets := by
    unfold combine_threads
    refine ((combineGo_flatten_perm limit hnodup hmono _ []
      ?_ hRnodup ?_).trans (roots_trees_cover hnodup hmono))
    · intro x hx
      exact (by
        rw [hRperm.mem_iff, mem_rootTweets hnodup] at hx
        exact hx)
    · intro x hx h
      simp at h
  refine ⟨hmain, ?_⟩
  intro t ht
  refine countP_mem_eq_one_of_count_flatten _ t ?_
  rw [List.perm_iff_count.mp hmain t]
  exact List.count_eq_one_of_mem (List.Nodup.of_map _ hnodup) ht

/-- A post that replies to itself: registered as its own child, hence
never a root and never reachable. -/
def selfReplyPost : Tweet :=
  { id_str := "7", full_text := "reply loop",
    created_at := ⟨2020, 1, 5, 0, 0, 0⟩,
    in_reply_to_status_id_str := some "7" }

/-- C1 (counterexample): an archive with unique identifiers whose single
post replies to itself.  `combine_threads` emits *no* segments, so the
post appears in zero segments — the output does not partition the input
post set as the claim states for every unique-id archive. -/
theorem combine_threads_partition_counterexample :
    (([selfReplyPost] : List Tweet).map Tweet.id_str).Nodup
    ∧ combine_threads [selfReplyPost] 26 = []
    ∧ ¬ ((combine_threads [selfReplyPost] 26).flatten).Perm
        [selfReplyPost] := by
  refine ⟨by decide, by decide, ?_⟩
  intro h
  have hfl : (combine_threads [selfReplyPost] 26).flatten = [] := by decide
  rw [hfl] at h
  simpa using h.length_eq

/-- Witness for the amended C1 at the concrete two-post archive. -/
theorem combine_threads_partition_witness :
    ((combine_threads [rootPost, replyPost] 26).flatten).Perm
      [rootPost, replyPost]
    ∧ ∀ t ∈ ([rootPost, replyPost] : List Tweet),
        (combine_threads [rootPost, replyPost] 26).countP
          (fun s => decide (t ∈ s)) = 1 :=
  combine_threads_partition [rootPost, replyPost] 26 (by decide)
    (by unfold ParentMono; decide)

/-! ## Timestamp normalization in `load_tweets` (C7)

`load_tweets` recovers from an unparseable JSON payload (it prints a
diagnostic and returns `[]`), but the subsequent per-post loop

    tweet_data['tweet']['created_at'] =
        datetime.strptime(created_at_str, '%a %b %d %H:%M:%S %z %Y')...

has no exception handling: the first unparseable `created_at` raises
`ValueError` out of `load_tweets`, failing the whole load.  The loop is
modelled below with `Except`; the raised exception is the `error`
branch. -/

/-- A tweet record as it sits in the archive before `load_tweets`
normalizes `created_at` (still the raw timestamp string). -/
structure RawTweet where
  id_str : String
  full_text : String
  created_at : String
  in_reply_to_status_id_str : Option String := none
  in_reply_to_screen_name : Option String := none
  entities : Entities := {}
  extended_entities : Option Entities := none
  favorite_count : String := "0"
  retweet_count : String := "0"
  coordinates : Option (Int × Int) := none
deriving DecidableEq, Repr

/-- Split a character list on a separator character. -/
def splitOnChar (sep : Char) : List Char → List (List Char)
  | [] => [[]]
  | c :: rest =>
    let r := splitOnChar sep rest
    if c == sep then [] :: r
    else
      match r with
      | h :: t => (c :: h) :: t
      | [] => [[c]]

/-- Digits-only parse (no sign, no spaces). -/
def parseDigits (cs : List Char) : Option Nat :=
  if !cs.isEmpty && cs.all Char.isDigit then some (digitsToNat cs) else none

/-- Lowercase a character list (ASCII). -/
def lowerChars (cs : List Char) : List Char :=
  cs.map Char.toLower

/-- `%a`: abbreviated weekday names, matched case-insensitively. -/
def weekdayAbbrevs : List String :=
  ["mon", "tue", "wed", "thu", "fri", "sat", "sun"]

/-- `%b`: abbreviated month names (case-insensitive) to month number. -/
def monthIndex (m : String) : Option Nat :=
  (["jan", "feb", "mar", "apr", "may", "jun",
    "jul", "aug", "sep", "oct", "nov", "dec"].indexOf? m).map (· + 1)

def isLeapYear (y : Nat) : Bool :=
  (y % 4 == 0 && y % 100 != 0) || y % 400 == 0

def daysInMonth (y m : Nat) : Nat :=
  if m == 2 then (if isLeapYear y then 29 else 28)
  else if m == 4 || m == 6 || m == 9 || m == 11 then 30
  else 31

/-- `datetime.strptime(s, '%a %b %d %H:%M:%S %z %Y')` followed by
`.replace(tzinfo=None)`: the weekday is matched but not validated, the
offset is matched and then discarded, and `datetime` validates the
field ranges (day against the month's length).  `none` models the
`ValueError` strptime raises on a mismatch. -/
def parseCreatedAt (s : String) : Option Timestamp := do
  match splitOnChar ' ' s.toList with
  | [wd, mon, dd, tm, zn, yr] =>
    guard (weekdayAbbrevs.contains (lowerChars wd).asString)
    let m ← monthIndex (lowerChars mon).asString
    let d ← parseDigits dd
    guard (dd.length ≤ 2)
    match splitOnChar ':' tm with
    | [hh, mi, ss] =>
      let h ← parseDigits hh
      guard (hh.length ≤ 2 && h ≤ 23)
      let minute ← parseDigits mi
      guard (mi.length ≤ 2 && minute ≤ 59)
      let sec ← parseDigits ss
      guard (ss.length ≤ 2 && sec ≤ 59)
      match zn with
      | zsign :: zdigits =>
        guard ((zsign == '+' || zsign == '-')
          && zdigits.length == 4 && zdigits.all Char.isDigit)
        let y ← parseDigits yr
        guard (yr.length == 4 && 1 ≤ y)
        guard (1 ≤ d && d ≤ daysInMonth y m)
        pure ⟨y, m, d, h, minute, sec⟩
      | [] => none
    | _ => none
  | _ => none

/-- Copy the unchanged fields, installing the parsed timestamp. -/
def withTimestamp (t : RawTweet) (ts : Timestamp) : Tweet :=
  { id_str := t.id_str, full_text := t.full_text, created_at := ts,
    in_reply_to_status_id_str := t.in_reply_to_status_id_str,
    in_reply_to_screen_name := t.in_reply_to_screen_name,
    entities := t.entities, extended_entities := t.extended_entities,
    favorite_count := t.favorite_count, retweet_count := t.retweet_count,
    coordinates := t.coordinates }

/-- The per-post normalization loop at the end of `load_tweets`: no
`try` around `strptime`, so the first unparseable `created_at` aborts
the whole load with that `ValueError`. -/
def normalizeTimestamps : List RawTweet → Except String (List Tweet)
  | [] => Except.ok []
  | t :: rest =>
    match parseCreatedAt t.created_at with
    | none =>
      Except.error ("time data does not match format: " ++ t.created_at)
    | some ts =>
      match normalizeTimestamps rest with
      | Except.error e => Except.error e
      | Except.ok more => Except.ok (withTimestamp t ts :: more)

/-- A raw tweet with a well-formed archive timestamp. -/
def goodRaw : RawTweet :=
  { id_str := "200", full_text := "fine",
    created_at := "Fri Mar 21 04:40:00 +0000 2006" }

/-- A raw tweet whose timestamp cannot be parsed. -/
def badRaw : RawTweet :=
  { id_str := "201", full_text := "broken",
    created_at := "not a date" }

/-- C7 (counterexample): an archive holding one well-formed post and one
post with an unparseable `created_at`.  Loading does *not* skip or zero
the bad post and continue: the whole load fails (the `strptime`
`ValueError` propagates), so the remaining posts are not returned. -/
theorem unparseable_timestamp_counterexample :
    parseCreatedAt "Fri Mar 21 04:40:00 +0000 2006"
      = some ⟨2006, 3, 21, 4, 40, 0⟩
    ∧ parseCreatedAt "not a date" = none
    ∧ normalizeTimestamps [goodRaw, badRaw]
        = Except.error "time data does not match format: not a date"
    ∧ ∀ l : List Tweet,
        normalizeTimestamps [goodRaw, badRaw] ≠ Except.ok l := by
  refine ⟨by decide, by decide, by rfl, ?_⟩
  intro l h
  have hc : normalizeTimestamps [goodRaw, badRaw]
      = Except.error "time data does not match format: not a date" := by
    rfl
  rw [hc] at h
  cases h

/-- C7 (amended): whenever any post's `created_at` fails to parse, the
timestamp-normalization phase of `load_tweets` fails the *whole* load
with an error instead of skipping the post; only archive-level JSON
malformation is recovered locally (with a diagnostic and an empty
result). -/
theorem unparseable_timestamp_fails_load (raw : List RawTweet)
    (t : RawTweet) (ht : t ∈ raw)
    (hbad : parseCreatedAt t.created_at = none) :
    ∃ e, normalizeTimestamps raw = Except.error e := by
  induction raw with
  | nil => cases ht
  | cons h rest ih =>
    rcases List.mem_cons.mp ht with rfl | ht2
    · exact ⟨"time data does not match format: " ++ t.created_at,
        by simp [normalizeTimestamps, hbad]⟩
    · rcases hp : parseCreatedAt h.created_at with _ | ts
      · exact ⟨"time data does not match format: " ++ h.created_at,
          by simp [normalizeTimestamps, hp]⟩
      · rcases ih ht2 with ⟨e, he⟩
        exact ⟨e, by simp [normalizeTimestamps, hp, he]⟩

/-- Witness for the amended C7 at the concrete two-post archive. -/
theorem unparseable_timestamp_fails_load_witness :
    ∃ e, normalizeTimestamps [goodRaw, badRaw] = Except.error e :=
  unparseable_timestamp_fails_load [goodRaw, badRaw] badRaw
    (by decide) (by decide)

/-! ## Delivery (`dayone_entry.add_post`) and the ledger-gated
processing (`processing_utils.process_single_thread`)

External collaborators are modelled as functions supplied to the
embedding: the `dayone2` subprocess as `execCommand` (its Boolean is
`_execute_command`'s success flag), `humanize.naturaldelta` and the
Ollama summarizer as string-valued functions.  Subprocess invocations
are an observable effect, so `add_post` returns the list of commands it
executed next to its Boolean result. -/

/-- The external collaborators of the pipeline. -/
structure PipelineEnv where
  execCommand : List String → Bool
  naturaldelta : Int → String
  tweetSummary : String → String

/-- The configuration surface consulted by the processing path. -/
structure Config where
  JOURNAL_NAME : String
  REPLY_JOURNAL_NAME : Option String
  CURRENT_USERNAME : String
  IGNORE_RETWEETS : Bool
  PROCESS_TITLES_WITH_LLM : Bool

/-- Two-digit zero padding (`%m`, `%d`, `%H`, `%M`, `%S`). -/
def pad2 (n : Nat) : String :=
  if n < 10 then "0" ++ toString n else toString n

/-- Four-digit zero padding for the year. -/
def pad4 (n : Nat) : String :=
  if n < 10 then "000" ++ toString n
  else if n < 100 then "00" ++ toString n
  else if n < 1000 then "0" ++ toString n
  else toString n

/-- `date_time.strftime("%Y-%m-%d %H:%M:%S")`. -/
def formatDateTime (ts : Timestamp) : String :=
  pad4 ts.year ++ "-" ++ pad2 ts.month ++ "-" ++ pad2 ts.day ++ " "
    ++ pad2 ts.hour ++ ":" ++ pad2 ts.minute ++ ":" ++ pad2 ts.second

/-- The `dayone2 new` command list built by `add_post`, flag by flag.
Coordinates are carried as integers (`str()` of the source's floats is
immaterial to every claim below). -/
def buildCommand (text : String) (journal : Option String)
    (tags : List String) (date_time : Option Timestamp)
    (coordinate : Option (Int × Int)) (attachments : List String) :
    List String :=
  let command := ["dayone2", "new", text]
  let command :=
    match journal with
    | some j => if j == "" then command else command ++ ["--journal", j]
    | none => command
  let command :=
    if tags.isEmpty then command else command ++ ["--tags"] ++ tags
  let command :=
    match date_time with
    | some dt => command ++ ["--date", formatDateTime dt, "-z", "UTC"]
    | none => command
  let command :=
    match coordinate with
    | some (lat, lon) =>
      command ++ ["--coordinate", toString lat, toString lon]
    | none => command
  if attachments.isEmpty then command
  else command ++ ["--attachments"] ++ attachments

/-- `dayone_entry.add_post`: first attempt with the full command; if it
fails and attachments were present, one retry with the command sliced at
the *first* occurrence of `"--attachments"` (`command.index`); the
`ValueError` fallback returns `False` without a second call.  The second
component is the trace of `_execute_command` invocations. -/
def add_post (exec : List String → Bool) (text : String)
    (journal : Option String) (tags : List String)
    (date_time : Option Timestamp) (coordinate : Option (Int × Int))
    (attachments : List String) : Bool × List (List String) :=
  let command :=
    buildCommand text journal tags date_time coordinate attachments
  let success := exec command
  if !success && !attachments.isEmpty then
    if command.contains "--attachments" then
      let command_without_attachments :=
        command.takeWhile (fun a => a != "--attachments")
      (exec command_without_attachments,
        [command, command_without_attachments])
    else (false, [command])
  else (success, [command])

theorem buildCommand_append (text : String) (journal : Option String)
    (tags : List String) (date_time : Option Timestamp)
    (coordinate : Option (Int × Int)) (attachments : List String)
    (hatt : attachments ≠ []) :
    buildCommand text journal tags date_time coordinate attachments
      = buildCommand text journal tags date_time coordinate []
        ++ ["--attachments"] ++ attachments := by
  have he : attachments.isEmpty = false := by
    simpa [List.isEmpty_iff] using hatt
  unfold buildCommand
  simp [he]

theorem takeWhile_until_first {x : String} :
    ∀ (base rest : List String), x ∉ base →
      (base ++ x :: rest).takeWhile (fun a => a != x) = base := by
  intro base
  induction base with
  | nil =>
    intro rest h
    simp [List.takeWhile]
  | cons b bs ih =>
    intro rest h
    have hbx : b ≠ x := fun hc => h (hc ▸ List.mem_cons_self _ _)
    have hbs : x ∉ bs := fun hc => h (List.mem_cons_of_mem _ hc)
    have hb : (b != x) = true := by simpa using hbx
    simp only [List.cons_append, List.takeWhile, hb]
    rw [show bs.append (x :: rest) = bs ++ x :: rest from rfl, ih rest hbs]

/-! ### Entry rendering (`dayone_entry_builder.py`) -/

/-- One line of `escape_md`'s first pass: escape `# ` headings except on
the very first line, and list/blockquote leaders. -/
def escapeLine (idx : Nat) (line : String) : String :=
  if strStartsWith line "# " && idx != 0 then "\\" ++ line
  else
    match line.toList with
    | c :: _ =>
      if c == '-' || c == '+' || c == '>' then "\\" ++ line else line
    | [] => line

/-- Python's `str.splitlines` restricted to `\n` terminators (the only
terminator this pipeline produces): a trailing newline yields no empty
final element. -/
def pySplitlines (s : String) : List String :=
  if s == "" then []
  else
    let parts := (splitOnChar '\n' s.toList).map List.asString
    if strEndsWithNewline s then parts.dropLast else parts
where
  strEndsWithNewline (s : String) : Bool :=
    match s.toList.getLast? with
    | some c => c == '\n'
    | none => false

/-- The inline pass of `escape_md`: each of `* \x60 | !` gets a
backslash prefix (the four sequential `str.replace` calls commute to a
single per-character pass). -/
def escapeInline (cs : List Char) : List Char :=
  (cs.map (fun c =>
    if c == '*' || c == '\x60' || c == '|' || c == '!'
    then ['\\', c] else [c])).flatten

/-- `escape_md`. -/
def escape_md (text : String) : String :=
  let lines := pySplitlines text
  let escaped := String.intercalate "\n"
    (lines.enum.map (fun p => escapeLine p.1 p.2))
  (escapeInline escaped.toList).asString

/-- The per-post permalink used in the rendered metrics. -/
def tweetUrl (cfg : Config) (tid : String) : String :=
  "https://twitter.com/" ++ cfg.CURRENT_USERNAME ++ "/status/" ++ tid

/-- Days of the proleptic Gregorian calendar (Rata Die), for modelling
`datetime` subtraction. -/
def rataDie (y m d : Nat) : Int :=
  let ym : Int := if m ≤ 2 then (y : Int) - 1 else (y : Int)
  let mm : Int := if m ≤ 2 then (m : Int) + 12 else (m : Int)
  365 * ym + ym / 4 - ym / 100 + ym / 400 + (153 * (mm + 1)) / 5 + d

/-- Seconds timeline of a naive timestamp. -/
def tsToSeconds (ts : Timestamp) : Int :=
  86400 * rataDie ts.year ts.month ts.day
    + 3600 * ts.hour + 60 * ts.minute + ts.second

/-- `current - first` of two naive datetimes, in seconds. -/
def timeDiffSeconds (a b : Timestamp) : Int :=
  tsToSeconds a - tsToSeconds b

/-- The loop body of `aggregate_thread_data`, recursing over the thread
with the running index and the first post's date. -/
def aggregateGo (cfg : Config) (env : PipelineEnv) (firstDate : Timestamp) :
    Nat → List Tweet →
    String × List String × List String × Option (Int × Int)
  | _, [] => ("", [], [], none)
  | i, t :: rest =>
    let (textR, tagsR, mediaR, coordR) :=
      aggregateGo cfg env firstDate (i + 1) rest
    let url := tweetUrl cfg t.id_str
    let likes := natId t.favorite_count
    let rts := natId t.retweet_count
    let metrics : List String :=
      (if likes > 0 then
        ["[Likes: " ++ toString likes ++ "](" ++ url ++ "/likes) ⭐️"]
      else [])
      ++ (if rts > 0 then
        ["[Retweets: " ++ toString rts ++ "](" ++ url ++ "/retweets) 🔁"]
      else [])
      ++ ["[Open on twitter.com](" ++ url ++ ")"]
    let time_diff_str :=
      if i > 0 then
        let diff := timeDiffSeconds t.created_at firstDate
        if diff > 600 then
          " (sent " ++ env.naturaldelta diff ++ " later)"
        else ""
      else ""
    let text := t.full_text ++ "\n\n"
      ++ String.intercalate "   " metrics ++ time_diff_str ++ "\n"
      ++ "___\n"
    let coord : Option (Int × Int) :=
      match t.coordinates with
      | some (lon, lat) => some (lat, lon)
      | none => none
    (text ++ textR, t.entities.hashtags ++ tagsR, t.media_files ++ mediaR,
      match coord with
      | some c => some c
      | none => coordR)

/-- `aggregate_thread_data`: concatenated body, hashtag list, media
list, the first post's timestamp, and the first non-null coordinate
(latitude/longitude swapped from the GeoJSON order). -/
def aggregate_thread_data (cfg : Config) (env : PipelineEnv)
    (thread : List Tweet) :
    String × List String × List String × Option Timestamp
      × Option (Int × Int) :=
  match thread with
  | [] => ("", [], [], none, none)
  | t :: _ =>
    let (text, tags, media, coord) :=
      aggregateGo cfg env t.created_at 0 thread
    (text, tags, media, some t.created_at, coord)

/-- `generate_entry_title`. -/
def generate_entry_title (cfg : Config) (env : PipelineEnv)
    (entry_text category : String) (thread_length : Nat) : String :=
  if strStartsWith category "Replied to" then category
  else if cfg.PROCESS_TITLES_WITH_LLM && thread_length > 1 then
    let llm_summary := env.tweetSummary entry_text
    if llm_summary != "Uncategorized" then "Wrote " ++ llm_summary
    else category
  else category

/-- `re.sub(r"(?:@\w+\s*)+", "", text)`: remove every maximal run of
whitespace-separated mentions.  Fuel-indexed; every consuming step
shortens the list. -/
def stripMentionRunsGo : Nat → List Char → List Char
  | 0, cs => cs
  | _ + 1, [] => []
  | fuel + 1, c :: rest =>
    if c == '@' then
      let w := rest.takeWhile isWordChar
      if w.isEmpty then c :: stripMentionRunsGo fuel rest
      else
        stripMentionRunsGo fuel
          ((rest.dropWhile isWordChar).dropWhile isSpaceChar)
    else c :: stripMentionRunsGo fuel rest

/-- Python's `str.strip()` (whitespace from both ends). -/
def pyStrip (s : String) : String :=
  (((s.toList.dropWhile isSpaceChar).reverse.dropWhile
    isSpaceChar).reverse).asString

/-- `build_entry_content`: reply framing (ordered deduplicated mention
extraction, mention stripping, parent-permalink footer) followed by the
title header and the markdown-escape pass. -/
def build_entry_content (entry_text : String) (first_tweet : Tweet)
    (category title : String) : String :=
  let entry_text :=
    match first_tweet.in_reply_to_status_id_str with
    | some rid =>
      if rid == "" then entry_text
      else
        let mentions := extractMentionsInOrder entry_text
        let rest := pyStrip
          (stripMentionRunsGo (entry_text.length + 1)
            entry_text.toList).asString
        let mentions_str := String.intercalate " " mentions
        rest ++ "\n\n"
          ++ "In response to [tweet](https://twitter.com/i/web/status/"
          ++ rid ++ "), which is part of conversation with "
          ++ mentions_str ++ "\n"
    | none => entry_text
  escape_md ("# " ++ title ++ "\n\n" ++ entry_text ++ "\n\n")

/-- `get_target_journal`: `None` means the thread is skipped (the caller
still marks it processed). -/
def get_target_journal (cfg : Config) (category : String) :
    Option String :=
  if strStartsWith category "Replied to" then
    match cfg.REPLY_JOURNAL_NAME with
    | some rj =>
      if strStartsWith category "Retweet" && cfg.IGNORE_RETWEETS then none
      else some rj
    | none => none
  else
    if strStartsWith category "Retweet" && cfg.IGNORE_RETWEETS then none
    else some cfg.JOURNAL_NAME

/-- `processing_utils.process_single_thread`.  State: the in-memory
`processed_tweet_ids` set loaded at run start (never updated within a
run, as in the source) and the ledger file contents (appended to by
`save_processed_tweet_id`).  Returns the new file contents and whether
an entry was delivered.  `list(set(entry_tags))` is modelled as
order-preserving dedup (the set's iteration order is unspecified; no
claim depends on it). -/
def process_single_thread (cfg : Config) (env : PipelineEnv)
    (thread : List Tweet) (processed_tweet_ids : List String)
    (ledger : List String) : List String × Bool :=
  match thread with
  | [] => (ledger, false)
  | first :: _ =>
    let tweet_id := first.id_str
    if processed_tweet_ids.contains tweet_id then (ledger, false)
    else
      let (category, thread2) := get_thread_category thread
      let (entry_text, entry_tags, entry_media_files, entry_date_time,
        entry_coordinate) := aggregate_thread_data cfg env thread2
      let title :=
        generate_entry_title cfg env entry_text category thread.length
      let entry_text2 := build_entry_content entry_text
        (thread2.headD first) category title
      match get_target_journal cfg category with
      | none => (ledger ++ [tweet_id], false)
      | some target_journal =>
        if (add_post env.execCommand entry_text2 (some target_journal)
            (dedupFirst entry_tags) entry_date_time entry_coordinate
            entry_media_files).1 then
          (ledger ++ [tweet_id], true)
        else (ledger, false)

/-- One full pass of the pipeline over the prepared threads: the
in-memory processed set stays fixed at its run-start value while the
ledger file grows.  Also counts the entries actually delivered. -/
def runPipeline (cfg : Config) (env : PipelineEnv) :
    List (List Tweet) → List String → List String → List String × Nat
  | [], _, ledger => (ledger, 0)
  | th :: rest, processed, ledger =>
    let (ledger2, delivered) :=
      process_single_thread cfg env th processed ledger
    let (ledgerF, n) := runPipeline cfg env rest processed ledger2
    (ledgerF, n + (if delivered then 1 else 0))

/-- C8 (amended): (1) when delivery of a draft with attachments fails,
`add_post` invokes the sink exactly twice — the full command, then the
command truncated at the first `"--attachments"` argument, which equals
the same draft without attachments provided no earlier argument is the
literal string `"--attachments"` — and surfaces the reduced retry's
result; in particular a second failure yields `False`.  (2) When a
thread is not skipped, its target journal resolves, and no entry is
delivered (the add_post call returned `False`), the lead identifier is
not appended to the ledger, leaving it eligible for redelivery. -/
theorem delivery_failure_retry_and_ledger (cfg : Config)
    (env : PipelineEnv) :
    (∀ (text : String) (journal : Option String) (tags : List String)
        (date_time : Option Timestamp) (coordinate : Option (Int × Int))
        (attachments : List String),
      attachments ≠ [] →
      "--attachments"
          ∉ buildCommand text journal tags date_time coordinate [] →
      env.execCommand
          (buildCommand text journal tags date_time coordinate
            attachments) = false →
      (add_post env.execCommand text journal tags date_time coordinate
            attachments).2
          = [buildCommand text journal tags date_time coordinate
              attachments,
             buildCommand text journal tags date_time coordinate []]
        ∧ (add_post env.execCommand text journal tags date_time
            coordinate attachments).1
          = env.execCommand
              (buildCommand text journal tags date_time coordinate []))
    ∧ (∀ (lead : Tweet) (rest : List Tweet)
        (processed ledger : List String),
      lead.id_str ∉ processed →
      get_target_journal cfg
          (get_thread_category (lead :: rest)).1 ≠ none →
      (process_single_thread cfg env (lead :: rest) processed
          ledger).2 = false →
      (process_single_thread cfg env (lead :: rest) processed
          ledger).1 = ledger) := by
  constructor
  · intro text journal tags date_time coordinate attachments hatt
      hclean h1
    have hbc := buildCommand_append text journal tags date_time
      coordinate attachments hatt
    have hae : attachments.isEmpty = false := by
      simpa [List.isEmpty_iff] using hatt
    have hcontains :
        (buildCommand text journal tags date_time coordinate
          attachments).contains "--attachments" = true := by
      rw [hbc]
      refine List.elem_iff.mpr ?_
      simp
    have htake :
        (buildCommand text journal tags date_time coordinate
            attachments).takeWhile (fun a => a != "--attachments")
          = buildCommand text journal tags date_time coordinate [] := by
      rw [hbc, List.append_assoc]
      exact takeWhile_until_first _ _ hclean
    simp only [add_post, h1, hae, Bool.not_false, Bool.and_self,
      if_true, hcontains, htake]
    exact ⟨trivial, trivial⟩
  · intro lead rest processed ledger hnp htj hdel
    have hcont : processed.contains lead.id_str = false := by
      cases hc : processed.contains lead.id_str
      · rfl
      · exact absurd (List.elem_iff.mp hc) hnp
    rcases hgtc : get_thread_category (lead :: rest) with ⟨category, thread2⟩
    rcases hagg : aggregate_thread_data cfg env thread2 with
      ⟨et, tg, mf, dt, co⟩
    rw [hgtc] at htj
    rcases htj2 : get_target_journal cfg category with _ | j
    · exact absurd htj2 htj
    · simp only [process_single_thread, hcont, Bool.false_eq_true,
        if_false, hgtc, hagg, htj2] at hdel ⊢
      by_cases hap : (add_post env.execCommand
          (build_entry_content et (thread2.headD lead) category
            (generate_entry_title cfg env et category
              (lead :: rest).length))
          (some j) (dedupFirst tg) dt co mf).1 = true
      · rw [if_pos hap] at hdel
        cases hdel
      · rw [if_neg hap] at hdel ⊢

/-- Processing appends to the ledger a block that does not depend on the
ledger's existing contents. -/
theorem process_single_thread_shift (cfg : Config) (env : PipelineEnv)
    (th : List Tweet) (processed ledger : List String) :
    process_single_thread cfg env th processed ledger
      = (ledger ++ (process_single_thread cfg env th processed []).1,
         (process_single_thread cfg env th processed []).2) := by
  cases th with
  | nil => simp [process_single_thread]
  | cons first rest =>
    by_cases hm : first.id_str ∈ processed
    · simp [process_single_thread, hm]
    · rcases hgtc : get_thread_category (first :: rest) with
        ⟨category, thread2⟩
      rcases hagg : aggregate_thread_data cfg env thread2 with
        ⟨et, tg, mf, dt, co⟩
      rcases htj : get_target_journal cfg category with _ | j
      · simp [process_single_thread, hm, hgtc, hagg, htj]
      · by_cases hap : (add_post env.execCommand
            (build_entry_content et (thread2.head?.getD first) category
              (generate_entry_title cfg env et category
                (rest.length + 1)))
            (some j) (dedupFirst tg) dt co mf).1 = true
        · simp [process_single_thread, hm, hgtc, hagg, htj, hap]
        · simp [process_single_thread, hm, hgtc, hagg, htj, hap]

/-- The run's ledger result is the initial file plus a block independent
of the initial file. -/
theorem runPipeline_shift (cfg : Config) (env : PipelineEnv) :
    ∀ (ths : List (List Tweet)) (processed ledger : List String),
    runPipeline cfg env ths processed ledger
      = (ledger ++ (runPipeline cfg env ths processed []).1,
         (runPipeline cfg env ths processed []).2) := by
  intro ths
  induction ths with
  | nil => intro processed ledger; simp [runPipeline]
  | cons th rest ih =>
    intro processed ledger
    simp only [runPipeline]
    rw [process_single_thread_shift cfg env th processed ledger,
      process_single_thread_shift cfg env th processed []]
    dsimp only
    simp only [List.nil_append]
    rw [ih processed
      (ledger ++ (process_single_thread cfg env th processed []).1),
      ih processed ((process_single_thread cfg env th processed []).1)]
    simp

/-- Whatever a processed thread appends ends up in the run's appended
block. -/
theorem mem_runPipeline_append (cfg : Config) (env : PipelineEnv) :
    ∀ (ths : List (List Tweet)) (processed : List String)
      (th : List Tweet), th ∈ ths →
      ∀ x ∈ (process_single_thread cfg env th processed []).1,
        x ∈ (runPipeline cfg env ths processed []).1 := by
  intro ths
  induction ths with
  | nil => intro processed th h; cases h
  | cons th0 rest ih =>
    intro processed th hmem x hx
    simp only [runPipeline]
    rw [runPipeline_shift cfg env rest processed
      (process_single_thread cfg env th0 processed []).1]
    rcases List.mem_cons.mp hmem with rfl | hmem2
    · exact List.mem_append_left _ hx
    · exact List.mem_append_right _ (ih processed th hmem2 x hx)

/-- If every thread's processing under the fixed in-memory set delivers
nothing, the run delivers nothing. -/
theorem runPipeline_zero (cfg : Config) (env : PipelineEnv) :
    ∀ (ths : List (List Tweet)) (processed ledger : List String),
      (∀ th ∈ ths,
        (process_single_thread cfg env th processed []).2 = false) →
      (runPipeline cfg env ths processed ledger).2 = 0 := by
  intro ths
  induction ths with
  | nil => intro processed ledger h; simp [runPipeline]
  | cons th rest ih =>
    intro processed ledger h
    simp only [runPipeline]
    rw [process_single_thread_shift cfg env th processed ledger]
    have hd := h th (by simp)
    rw [hd]
    simp only [Bool.false_eq_true, if_false]
    have := ih processed
      (ledger ++ (process_single_thread cfg env th processed []).1)
      (fun u hu => h u (List.mem_cons_of_mem _ hu))
    simp only [runPipeline] at this ⊢
    omega

/-- Processing a thread under a second-run set delivers nothing when the
lead id is either already in the set or its first-run delivery failed. -/
theorem second_run_thread_no_delivery (cfg : Config) (env : PipelineEnv)
    (threads : List (List Tweet)) (L0 : List String)
    (th : List Tweet) (hth : th ∈ threads) :
    (process_single_thread cfg env th
      ((runPipeline cfg env threads L0 L0).1) []).2 = false := by
  have hL1 : (runPipeline cfg env threads L0 L0).1
      = L0 ++ (runPipeline cfg env threads L0 []).1 := by
    rw [runPipeline_shift cfg env threads L0 L0]
  cases th with
  | nil => simp [process_single_thread]
  | cons lead rest =>
    by_cases hin : lead.id_str ∈ (runPipeline cfg env threads L0 L0).1
    · simp [process_single_thread, hin]
    · have hnotL0 : lead.id_str ∉ L0 := fun hmem =>
        hin (hL1 ▸ List.mem_append_left _ hmem)
      have hnotA : lead.id_str ∉ (runPipeline cfg env threads L0 []).1 :=
        fun hmem => hin (hL1 ▸ List.mem_append_right _ hmem)
      have hnotP : lead.id_str
          ∉ (process_single_thread cfg env (lead :: rest) L0 []).1 :=
        fun hmem =>
          hnotA (mem_runPipeline_append cfg env threads L0 _ hth _ hmem)
      rcases hgtc : get_thread_category (lead :: rest) with
        ⟨category, thread2⟩
      rcases hagg : aggregate_thread_data cfg env thread2 with
        ⟨et, tg, mf, dt, co⟩
      rcases htj : get_target_journal cfg category with _ | j
      · exfalso
        apply hnotP
        simp [process_single_thread, hnotL0, hgtc, hagg, htj]
      · by_cases hap : (add_post env.execCommand
            (build_entry_content et (thread2.head?.getD lead) category
              (generate_entry_title cfg env et category
                (rest.length + 1)))
            (some j) (dedupFirst tg) dt co mf).1 = true
        · exfalso
          apply hnotP
          simp [process_single_thread, hnotL0, hgtc, hagg, htj, hap]
        · simp [process_single_thread, hin, hgtc, hagg, htj, hap]

/-- C9: an identifier already in the ledger at run start is skipped
without delivery, and a second full pass over the same (or a shuffled or
truncated) thread list against the ledger produced by the first pass
delivers zero additional entries. -/
theorem pipeline_idempotent (cfg : Config) (env : PipelineEnv)
    (threads threads2 : List (List Tweet)) (L0 : List String)
    (hsub : ∀ th ∈ threads2, th ∈ threads) :
    (∀ (lead : Tweet) (rest : List Tweet) (processed ledger : List String),
      lead.id_str ∈ processed →
      process_single_thread cfg env (lead :: rest) processed ledger
        = (ledger, false))
    ∧ (runPipeline cfg env threads2
        ((runPipeline cfg env threads L0 L0).1)
        ((runPipeline cfg env threads L0 L0).1)).2 = 0 := by
  constructor
  · intro lead rest processed ledger hmem
    simp [process_single_thread, hmem]
  · refine runPipeline_zero cfg env threads2 _ _ ?_
    intro th hth
    exact second_run_thread_no_delivery cfg env threads L0 th (hsub th hth)

/-- A sink that always fails, with fixed external collaborators. -/
def failEnv : PipelineEnv :=
  { execCommand := fun _ => false,
    naturaldelta := fun _ => "a while",
    tweetSummary := fun _ => "Uncategorized" }

/-- A sink that always succeeds. -/
def okEnv : PipelineEnv :=
  { execCommand := fun _ => true,
    naturaldelta := fun _ => "a while",
    tweetSummary := fun _ => "Uncategorized" }

/-- A concrete configuration mirroring `config.py`'s shape. -/
def testConfig : Config :=
  { JOURNAL_NAME := "Twitter Test",
    REPLY_JOURNAL_NAME := some "Twitter Replies Test",
    CURRENT_USERNAME := "JonathanSeriesX",
    IGNORE_RETWEETS := false,
    PROCESS_TITLES_WITH_LLM := false }

/-- Witness for C8 at a concrete draft and thread under the
always-failing sink. -/
theorem delivery_failure_retry_and_ledger_witness :
    ((add_post failEnv.execCommand "hello" (some "Twitter Test") []
        none none ["/a.jpg"]).2
      = [buildCommand "hello" (some "Twitter Test") [] none none
          ["/a.jpg"],
         buildCommand "hello" (some "Twitter Test") [] none none []]
     ∧ (add_post failEnv.execCommand "hello" (some "Twitter Test") []
        none none ["/a.jpg"]).1
      = failEnv.execCommand
          (buildCommand "hello" (some "Twitter Test") [] none none []))
    ∧ (process_single_thread testConfig failEnv [rootPost] [] []).1
        = [] :=
  ⟨(delivery_failure_retry_and_ledger testConfig failEnv).1 "hello"
      (some "Twitter Test") [] none none ["/a.jpg"]
      (by decide) (by decide) rfl,
   (delivery_failure_retry_and_ledger testConfig failEnv).2 rootPost []
      [] [] (by decide) (by decide) (by decide)⟩

/-- Witness for C9 at the concrete one-thread archive under the
always-succeeding sink. -/
theorem pipeline_idempotent_witness :
    process_single_thread testConfig okEnv [rootPost, replyPost]
        ["100"] [] = ([], false)
    ∧ (runPipeline testConfig okEnv [[rootPost, replyPost]]
        ((runPipeline testConfig okEnv [[rootPost, replyPost]] [] []).1)
        ((runPipeline testConfig okEnv [[rootPost, replyPost]] [] []).1)).2
      = 0 :=
  ⟨(pipeline_idempotent testConfig okEnv [[rootPost, replyPost]]
      [[rootPost, replyPost]] [] (fun th h => h)).1 rootPost [replyPost]
      ["100"] [] (by decide),
   (pipeline_idempotent testConfig okEnv [[rootPost, replyPost]]
      [[rootPost, replyPost]] [] (fun th h => h)).2⟩

/-- C8 (failing input): a draft whose *entry text* is the literal string
`"--attachments"`.  `command.index("--attachments")` finds the text
argument (position 2), so the "reduced" retry command is just
`["dayone2", "new"]` — the body and every flag are lost — instead of the
same draft with only the attachments stripped
(`["dayone2", "new", "--attachments"]`), contradicting `add_post`'s own
docstring ("retries creating the same entry without the attachments"). -/
theorem delivery_retry_truncation_at_failing_input :
    (add_post failEnv.execCommand "--attachments" none [] none none
        ["/a.jpg"]).2
      = [["dayone2", "new", "--attachments", "--attachments", "/a.jpg"],
         ["dayone2", "new"]]
    ∧ buildCommand "--attachments" none [] none none []
      = ["dayone2", "new", "--attachments"]
    ∧ (["dayone2", "new"] : List String)
      ≠ buildCommand "--attachments" none [] none none [] := by
  refine ⟨by decide, by decide, by decide⟩

end DayoneXTwitter
